import Mathlib

/-!
# show-tree: a shallow embedding of `src/main.cpp`

The program walks a directory and prints it as an indented tree.  This file
embeds the functions of `main.cpp` that decide ordering, filtering and
rendering, and the parsing of the command line, and proves properties of them.

Modelling conventions.

* `std::string` is a Lean `String`, read as its sequence of Unicode scalar
  values.  For valid UTF-8 text, byte-wise lexicographic comparison
  (`std::string::operator<`) coincides with comparison of the scalar-value
  sequences, and `::tolower` in the default "C" locale changes exactly the bytes
  `A`-`Z`, which is what `Char.toLower` does.
* A filesystem snapshot is a finite tree (`Node`) of objects whose kind the status
  query determines; symbolic-link cycles are not representable.  An entry whose
  status query fails, for which `is_directory()` throws, appears only in `Entry`
  and the comparators built on it.
* `std::cout` is the list of lines written (each without its final newline);
  `std::cerr` is not modelled.
* `std::string::front()` on an empty string is undefined; functions that may
  reach it return `Option`, with `none` standing for the undefined execution.
* Functions of the standard library (`path::extension`, `std::sort`, `std::stoi`,
  the error values of `file_size` and `last_write_time`) are modelled from their
  specification in the C++ standard.
-/

namespace ShowTree

/-! ## Data model -/

/-- The enumeration `Settings::SortType`. -/
inductive SortType where
  | NAME
  | SIZE
  | DATE
  deriving DecidableEq, Repr

/-- The struct `Settings`, with the default member initialisers of the source. -/
structure Settings where
  directory : String := ""
  max_depth : Int := -1
  filters : List String := []
  sort_type : SortType := SortType.NAME
  include_hidden : Bool := false
  deriving Repr

/-- One object of the filesystem snapshot, as seen through `fs::directory_entry`.
`size` and `mtime` are `none` when the corresponding query reports an error. -/
inductive Node where
  | file (name : String) (size : Option Nat) (mtime : Option Int)
  | dir (name : String) (mtime : Option Int) (children : List Node)
  deriving Repr

/-- The string `entry.path().filename().string()`. -/
def Node.filename : Node → String
  | Node.file name _ _ => name
  | Node.dir name _ _ => name

/-- The value of `entry.is_directory()` for an object whose kind the status query
determines; a snapshot holds such objects only.  The call throws when the query
fails, a case kept apart in `Entry.is_directory`. -/
def Node.is_directory : Node → Bool
  | Node.file _ _ _ => false
  | Node.dir _ _ _ => true

/-- The value `static_cast<uintmax_t>(-1)`, returned by `file_size(ec)` on error. -/
def UINTMAX_MAX : Nat := 2 ^ 64 - 1

/-- The tick count of `file_time_type::min()`, returned by `last_write_time(ec)`
on error (64-bit signed representation). -/
def FILE_TIME_MIN : Int := -(2 ^ 63)

/-- The value of `entry.file_size(ec)`; the source never calls it on a directory. -/
def Node.file_size : Node → Nat
  | Node.file _ (some n) _ => n
  | Node.file _ none _ => UINTMAX_MAX
  | Node.dir _ _ _ => UINTMAX_MAX

/-- The value of `entry.last_write_time(ec).time_since_epoch().count()`. -/
def Node.last_write_time : Node → Int
  | Node.file _ _ (some t) => t
  | Node.file _ _ none => FILE_TIME_MIN
  | Node.dir _ (some t) _ => t
  | Node.dir _ none _ => FILE_TIME_MIN

mutual
/-- The number of objects in a snapshot; it decreases along every recursive call
of `print_tree`. -/
def Node.weight : Node → Nat
  | Node.file _ _ _ => 1
  | Node.dir _ _ children => 1 + Node.weight_list children
/-- The sum of the weights of the objects of a listing. -/
def Node.weight_list : List Node → Nat
  | [] => 0
  | child :: rest => child.weight + Node.weight_list rest
end

/-! ## Strings and paths -/

/-- The suffix of a character sequence that starts at its rightmost `.`, if any. -/
def rfind_dot : List Char → Option (List Char)
  | [] => none
  | c :: cs =>
    match rfind_dot cs with
    | some e => some e
    | none => if c = '.' then some (c :: cs) else none

/-- The function `std::filesystem::path::extension()` applied to a filename: the
substring from the rightmost period to the end, where a period that is the
first character does not count and `.` and `..` have no extension. -/
def extension (name : String) : String :=
  if name = "." ∨ name = ".." then ""
  else
    match name.data with
    | [] => ""
    | _ :: cs =>
      match rfind_dot cs with
      | some e => String.mk e
      | none => ""

/-- The call `std::transform(s.begin(), s.end(), s.begin(), ::tolower)`. -/
def tolower (s : String) : String :=
  String.mk (s.data.map Char.toLower)

/-- The call `s.front()`, undefined (`none`) on the empty string. -/
def front (s : String) : Option Char :=
  s.data.head?

/-- The function `is_hidden`, in its non-Windows branch:
`filename().string().starts_with(".")`. -/
def is_hidden (entry : Node) : Bool :=
  match entry.filename.data with
  | c :: _ => c == '.'
  | [] => false

/-- The comparison `a < b` of two `std::string`s: lexicographic on the characters,
a proper prefix being smaller. -/
def string_less (a b : String) : Bool :=
  decide (a.data < b.data)

/-! ## Sorting -/

/-- The lambda `file_type_sort` of `sort_directory`. -/
def file_type_sort (a b : Node) : Bool :=
  if a.is_directory ≠ b.is_directory then
    decide (a.is_directory > b.is_directory)
  else
    let ext_a := extension a.filename
    let ext_b := extension b.filename
    if ext_a ≠ ext_b then
      string_less ext_a ext_b
    else
      string_less a.filename b.filename

/-- The comparator lambda of the `SIZE` case of `sort_directory`. -/
def size_sort (a b : Node) : Bool :=
  let size_a := if a.is_directory then 0 else a.file_size
  let size_b := if b.is_directory then 0 else b.file_size
  if size_a ≠ size_b then
    decide (size_a < size_b)
  else
    file_type_sort a b

/-- The comparator lambda of the `DATE` case of `sort_directory`. -/
def date_sort (a b : Node) : Bool :=
  let time_a := a.last_write_time
  let time_b := b.last_write_time
  if time_a ≠ time_b then
    decide (time_a < time_b)
  else
    file_type_sort a b

/-- The comparator that the `switch` of `sort_directory` hands to `std::sort`. -/
def comparator : SortType → Node → Node → Bool
  | SortType.NAME => file_type_sort
  | SortType.SIZE => size_sort
  | SortType.DATE => date_sort

/-- The call `std::sort(first, last, comp)`: the elements rearranged so that no
element is `comp`-smaller than one before it.  When `comp` is a strict total
order on the elements this arrangement is unique, so the algorithm chosen here
(insertion) does not matter. -/
def std_sort {α : Type} (comp : α → α → Bool) (l : List α) : List α :=
  List.insertionSort (fun a b => comp b a = false) l

/-- The function `sort_directory`. -/
def sort_directory (entries : List Node) (sort_type : SortType) : List Node :=
  std_sort (comparator sort_type) entries

/-! ## Filtering -/

/-- The `for` loop of `matches_filter` over `settings.filters`, for an entry whose
lower-cased extension is `ext`. -/
def filter_loop (ext : String) : List String → Option Bool
  | [] => some false
  | f :: rest =>
    match front f with
    | none => none
    | some c =>
      let filter := if c ≠ '.' then "." ++ f else f
      let filter := tolower filter
      if ext = filter then some true else filter_loop ext rest

/-- The function `matches_filter`. -/
def matches_filter (entry : Node) (settings : Settings) : Option Bool :=
  if settings.filters.isEmpty then some true
  else if entry.is_directory then some false
  else filter_loop (tolower (extension entry.filename)) settings.filters

/-- The first loop of `print_tree`: the entries of the directory listing that are
pushed to `entries`, in listing order. -/
def collect_entries (settings : Settings) : List Node → Option (List Node)
  | [] => some []
  | entry :: rest =>
    if !settings.include_hidden && is_hidden entry then collect_entries settings rest
    else
      match matches_filter entry settings with
      | none => none
      | some false => collect_entries settings rest
      | some true =>
        match collect_entries settings rest with
        | none => none
        | some entries => some (entry :: entries)

/-! ## Rendering -/

/-- One line written to `std::cout` by `print_tree` (`text`, without the newline),
together with the `depth` argument of the call that wrote it and the `entry` it
was written for. -/
structure Emitted where
  depth : Int
  entry : Node
  text : String
  deriving Repr

/-- The second loop of `print_tree`, `for (size_t i = 0; i < count; ++i)`, from
index `i` on, where the list holds `entries[i], entries[i+1], ...` and
`recurse entry new_prefix` is the recursive call
`print_tree(entry.path(), settings, depth + 1, new_prefix)`. -/
def print_entries (recurse : Node → String → Option (List Emitted)) (depth : Int)
    (pre : String) (count : Nat) : Nat → List Node → Option (List Emitted)
  | _, [] => some []
  | i, entry :: rest =>
    let is_last := decide (i = count - 1)
    let line := pre ++ (if is_last then "└─ " else "├─ ") ++ entry.filename
      ++ (if entry.is_directory then "/" else "")
    let below :=
      if entry.is_directory then
        let new_prefix := pre ++ (if is_last then "    " else "│   ")
        recurse entry new_prefix
      else some []
    match below with
    | none => none
    | some sub =>
      match print_entries recurse depth pre count (i + 1) rest with
      | none => none
      | some later => some (Emitted.mk depth entry line :: (sub ++ later))

/-- The function `print_tree`, applied to the filesystem object found at `path`,
with every written line tagged as described at `Emitted`.  The test
`entry.weight < node.weight` holds for every entry of the listing of `node`; it
is there to justify the recursion and its other branch is never taken
(`print_tree_trace_dir`). -/
def print_tree_trace (node : Node) (settings : Settings) (depth : Int) (pre : String) :
    Option (List Emitted) :=
  if settings.max_depth ≠ -1 ∧ depth > settings.max_depth then some []
  else
    match _hnode : node with
    | Node.file _ _ _ => some []
    | Node.dir _ _ children =>
      match collect_entries settings children with
      | none => none
      | some listed =>
        let entries := sort_directory listed settings.sort_type
        let count := entries.length
        print_entries
          (fun entry new_prefix =>
            if _h : entry.weight < node.weight then
              print_tree_trace entry settings (depth + 1) new_prefix
            else some [])
          depth pre count 0 entries
termination_by node.weight
decreasing_by
  rw [_hnode] at _h
  exact _h

/-- A structurally recursive evaluator of `print_tree_trace`, used to compute it on
concrete snapshots: `fuel` bounds the nesting of the calls, and the result is
that of `print_tree_trace` as soon as `fuel` is at least the weight of the
snapshot (`print_tree_fuel_eq`). -/
def print_tree_fuel : Nat → Node → Settings → Int → String → Option (List Emitted)
  | 0, _, _, _, _ => none
  | fuel + 1, node, settings, depth, pre =>
    if settings.max_depth ≠ -1 ∧ depth > settings.max_depth then some []
    else
      match node with
      | Node.file _ _ _ => some []
      | Node.dir _ _ children =>
        match collect_entries settings children with
        | none => none
        | some listed =>
          let entries := sort_directory listed settings.sort_type
          let count := entries.length
          print_entries
            (fun entry new_prefix => print_tree_fuel fuel entry settings (depth + 1) new_prefix)
            depth pre count 0 entries

/-- The function `print_tree`: the lines written to `std::cout`. -/
def print_tree (node : Node) (settings : Settings) (depth : Int) (pre : String) :
    Option (List String) :=
  (print_tree_trace node settings depth pre).map (List.map Emitted.text)

/-! ## Proof devices and scenario data -/

/-- The tuple whose lexicographic order `comparator` realises (`comparator_iff`):
the size or time compared first by the `SIZE` and `DATE` lambdas (a constant for
`NAME`), then the three keys of `file_type_sort`. -/
def order_key (t : SortType) (a : Node) : ℤ ×ₗ Bool ×ₗ List Char ×ₗ List Char :=
  toLex (
    (match t with
      | SortType.NAME => (0 : ℤ)
      | SortType.SIZE => ((if a.is_directory then 0 else a.file_size : Nat) : ℤ)
      | SortType.DATE => a.last_write_time),
    toLex (!a.is_directory, toLex ((extension a.filename).data, a.filename.data)))

/-- The tree of the scenarios of the specification: a root holding the directory
`src` (holding `a.txt` and `b.md`) and the file `README.md`, for given sizes of
the three files and given modification times. -/
def proj_tree (size_a size_b size_readme : Option Nat)
    (time_a time_b time_readme time_src time_root : Option Int) : Node :=
  Node.dir "proj" time_root
    [Node.dir "src" time_src
        [Node.file "a.txt" size_a time_a, Node.file "b.md" size_b time_b],
      Node.file "README.md" size_readme time_readme]

/-- The scenario tree with the sizes of scenario 7 (`a.txt` 100 bytes, `b.md` 5,
`README.md` 50) and all modification times equal. -/
def proj : Node :=
  proj_tree (some 100) (some 5) (some 50) (some 0) (some 0) (some 0) (some 0) (some 0)

/-- The branch glyph of the specification: the corner for the last sibling, the tee
otherwise. -/
def branch_glyph (last : Bool) : String :=
  if last then "└─ " else "├─ "

/-- The continuation segment of the specification: blank for the last sibling,
vertical otherwise. -/
def continuation (last : Bool) : String :=
  if last then "    " else "│   "

/-- The line of the specification for one child: the inherited prefix, the branch
glyph, the name of the child, and `/` if the child is a directory. -/
def entry_line (p : String) (last : Bool) (c : Node) : String :=
  p ++ branch_glyph last ++ c.filename ++ (if c.is_directory then "/" else "")

/-- The concatenation of the continuation segments of a chain of ancestors, the
outermost first; the list holds, for each ancestor, whether it was the last
sibling. -/
def segments : List Bool → String
  | [] => ""
  | last :: rest => continuation last ++ segments rest

/-- The normal form of a filter in the specification: given a leading dot if it
lacks one, then lower-cased. -/
def normalized_filter (f : String) : String :=
  tolower (if f.data.head? = some '.' then f else "." ++ f)

/-- A filter without its leading dot, if it has one. -/
def strip_dot (f : String) : String :=
  match f.data with
  | c :: rest => if c = '.' then String.mk rest else f
  | [] => f

/-- Two filters differ at most in the case of their letters and in whether they
start with a dot. -/
def same_filter (f g : String) : Bool :=
  decide (tolower (strip_dot f) = tolower (strip_dot g))

/-- The listing held by a directory (empty for a file). -/
def Node.children : Node → List Node
  | Node.file _ _ _ => []
  | Node.dir _ _ children => children

mutual
/-- The snapshot without the entries below its root whose name begins with `.`, and
without all that lies beneath such entries.  The root itself is kept whatever
its name. -/
def Node.without_hidden : Node → Node
  | Node.file name size mtime => Node.file name size mtime
  | Node.dir name mtime children => Node.dir name mtime (Node.without_hidden_list children)
/-- The listing without the entries whose name begins with `.`, the remaining
entries being freed of hidden entries in turn. -/
def Node.without_hidden_list : List Node → List Node
  | [] => []
  | child :: rest =>
    if is_hidden child then Node.without_hidden_list rest
    else child.without_hidden :: Node.without_hidden_list rest
end

/-- The field `size_bytes` of the specification: the size of a file, a directory
counting as size 0. -/
def size_bytes (a : Node) : Nat :=
  if a.is_directory then 0 else a.file_size

/-- The three-tier rule `compare` of the specification: directories before files;
then, within the same group, the key of the sort mode (nothing for `NAME`,
`size_bytes` ascending for `SIZE`, the modification time ascending for `DATE`);
then the extension string ascending, then the filename ascending. -/
def three_tier (t : SortType) (a b : Node) : Bool :=
  if a.is_directory ≠ b.is_directory then a.is_directory
  else
    let second : Option Bool :=
      match t with
      | SortType.NAME => none
      | SortType.SIZE =>
        if size_bytes a ≠ size_bytes b then some (decide (size_bytes a < size_bytes b)) else none
      | SortType.DATE =>
        if a.last_write_time ≠ b.last_write_time then
          some (decide (a.last_write_time < b.last_write_time))
        else none
    match second with
    | some result => result
    | none =>
      if extension a.filename ≠ extension b.filename then
        string_less (extension a.filename) (extension b.filename)
      else string_less a.filename b.filename

/-- The entry is not skipped as hidden and `matches_filter` is undefined on it: the
first loop of `print_tree` is then undefined. -/
def undefined_at (s : Settings) (e : Node) : Bool :=
  !(!s.include_hidden && is_hidden e) && (matches_filter e s).isNone

/-- The entry is pushed to `entries` by the first loop of `print_tree`: it is not
skipped as hidden and passes `matches_filter`. -/
def selected (s : Settings) (e : Node) : Bool :=
  !(!s.include_hidden && is_hidden e) && decide (matches_filter e s = some true)

/-- The second snapshot is the first one listed otherwise: the same objects, the
listing of any number of directories being given in another order, where a
directory that is listed in another order holds pairwise distinct names. -/
inductive Relisted : Node → Node → Prop where
  | same (node : Node) : Relisted node node
  | listing (name : String) (mtime : Option Int) (children children' : List Node) :
      children.Perm children' → (children.map Node.filename).Nodup →
      Relisted (Node.dir name mtime children) (Node.dir name mtime children')
  | child (name : String) (mtime : Option Int) (before after : List Node) (c c' : Node) :
      Relisted c c' →
      Relisted (Node.dir name mtime (before ++ c :: after))
        (Node.dir name mtime (before ++ c' :: after))
  | step (a b c : Node) : Relisted a b → Relisted b c → Relisted a c
/-- Two entries that `print_tree` cannot tell apart under the settings `s`: the
same name, kind and sort keys, and the same lines written for them. -/
def alike (s : Settings) (x y : Node) : Prop :=
  x.filename = y.filename ∧ x.is_directory = y.is_directory ∧
    (∀ t : SortType, order_key t x = order_key t y) ∧
    ∀ (d : Int) (q : String), print_tree x s d q = print_tree y s d q

/-! ## Argument parsing -/

/-- The largest value of `int`. -/
def INT_MAX : Int := 2 ^ 31 - 1

/-- The smallest value of `int`. -/
def INT_MIN : Int := -(2 ^ 31)

/-- The function `isspace` in the default "C" locale. -/
def isspace (c : Char) : Bool :=
  c = ' ' ∨ c = '\t' ∨ c = '\n' ∨ c = '\x0b' ∨ c = '\x0c' ∨ c = '\r'

/-- The number written by a sequence of decimal digits. -/
def digits_value (digits : List Char) : Nat :=
  digits.foldl (fun acc c => 10 * acc + (c.toNat - '0'.toNat)) 0

/-- The function `std::stoi(str)` of the standard library (base 10): leading
whitespace is skipped, an optional sign is read, then the longest run of
digits; what follows the digits is ignored.  The result is `none` when an
exception is thrown: `std::invalid_argument` when there is no digit to read,
`std::out_of_range` when the number does not fit in `int`. -/
def stoi (str : String) : Option Int :=
  match str.data.dropWhile isspace with
  | [] => none
  | c :: rest =>
    let negative := decide (c = '-')
    let unsigned := if c = '-' ∨ c = '+' then rest else c :: rest
    let digits := unsigned.takeWhile Char.isDigit
    if digits = [] then none
    else
      let magnitude : Int := (digits_value digits : Nat)
      let value := if negative then -magnitude else magnitude
      if value < INT_MIN ∨ INT_MAX < value then none else some value

/-- The splitting loop of `parse_arguments` and the test after it, read one
character at a time: `segment` holds the characters of `filter_str` met since the
last comma.  Every comma pushes the segment before it, empty or not
(`filter_str.substr(0, pos)`); what remains after the last comma is pushed only
if it is not empty. -/
def split_filters (segment : List Char) : List Char → List String
  | [] => if segment = [] then [] else [String.mk segment]
  | c :: rest =>
    if c = ',' then String.mk segment :: split_filters [] rest
    else split_filters (segment ++ [c]) rest

/-- How a call of `parse_arguments` ends: it returns `result`, having brought the
settings to `settings`, or an exception leaves it. -/
inductive ParseOutcome where
  | returned (result : Bool) (settings : Settings)
  | threw
  deriving Repr

/-- The `for` loop of `parse_arguments` over `argv[i], argv[i+1], ...`; the test
`i + 1 < argc` holds exactly when a further argument follows. -/
def parse_options : List String → Settings → ParseOutcome
  | [], settings => ParseOutcome.returned true settings
  | [arg], settings =>
    if arg = "-h" ∨ arg = "--hidden" then
      ParseOutcome.returned true { settings with include_hidden := true }
    else ParseOutcome.returned false settings
  | arg :: value :: rest, settings =>
    if arg = "-d" ∨ arg = "--depth" then
      match stoi value with
      | none => ParseOutcome.threw
      | some depth => parse_options rest { settings with max_depth := depth }
    else if arg = "-f" ∨ arg = "--filter" then
      parse_options rest
        { settings with filters := settings.filters ++ split_filters [] value.data }
    else if arg = "-s" ∨ arg = "--sort" then
      if value = "name" then parse_options rest { settings with sort_type := SortType.NAME }
      else if value = "size" then
        parse_options rest { settings with sort_type := SortType.SIZE }
      else if value = "date" then
        parse_options rest { settings with sort_type := SortType.DATE }
      else ParseOutcome.returned false settings
    else if arg = "-h" ∨ arg = "--hidden" then
      parse_options (value :: rest) { settings with include_hidden := true }
    else ParseOutcome.returned false settings

/-- The function `parse_arguments`, applied to `argv[0], ..., argv[argc-1]`. -/
def parse_arguments (argv : List String) (settings : Settings) : ParseOutcome :=
  match argv with
  | [] => ParseOutcome.returned false settings
  | [_] => ParseOutcome.returned false settings
  | _ :: directory :: options => parse_options options { settings with directory := directory }
/-- The value is a well-formed non-negative decimal integer: one digit or more and
nothing else. -/
def well_formed_depth (value : String) : Bool :=
  decide (value.data ≠ []) && value.data.all Char.isDigit

/-- A lower-casing of letters that, unlike `::tolower` in the "C" locale, reaches
beyond ASCII: it lower-cases `A`-`Z` and the accented capital letters `À`-`Þ` of
Latin-1 (`×` apart). -/
def to_lower_latin1 (c : Char) : Char :=
  if (65 ≤ c.toNat ∧ c.toNat ≤ 90) ∨ (192 ≤ c.toNat ∧ c.toNat ≤ 222 ∧ c.toNat ≠ 215) then
    Char.ofNat (c.toNat + 32)
  else c

/-- Two filters differ at most in the case of their letters, accented letters
included, and in whether they start with a dot. -/
def same_letters (f g : String) : Bool :=
  decide ((strip_dot f).data.map to_lower_latin1 = (strip_dot g).data.map to_lower_latin1)

/-- A directory entry as the comparator of `sort_directory` receives it: an object
whose kind the status query determines, or an entry for which that query fails,
so that `is_directory()` throws (a symbolic link that loops, for instance).  The
size and time queries of such an entry succeed or fail on their own. -/
inductive Entry where
  | known (node : Node)
  | unknown (name : String) (size : Option Nat) (mtime : Option Int)

/-- The call `entry.is_directory()`, `none` when it throws. -/
def Entry.is_directory : Entry → Option Bool
  | Entry.known node => some node.is_directory
  | Entry.unknown _ _ _ => none

/-- The string `entry.path().filename().string()`. -/
def Entry.filename : Entry → String
  | Entry.known node => node.filename
  | Entry.unknown name _ _ => name

/-- The value of `entry.file_size(ec)`, which does not throw. -/
def Entry.file_size : Entry → Nat
  | Entry.known node => node.file_size
  | Entry.unknown _ (some n) _ => n
  | Entry.unknown _ none _ => UINTMAX_MAX

/-- The value of `entry.last_write_time(ec).time_since_epoch().count()`, which does
not throw. -/
def Entry.last_write_time : Entry → Int
  | Entry.known node => node.last_write_time
  | Entry.unknown _ _ (some t) => t
  | Entry.unknown _ _ none => FILE_TIME_MIN

/-- The lambda `file_type_sort` of `sort_directory`, `none` when a call of
`is_directory()` throws. -/
def file_type_sort_or_throw (a b : Entry) : Option Bool :=
  match a.is_directory, b.is_directory with
  | some dir_a, some dir_b =>
    if dir_a ≠ dir_b then some (decide (dir_a > dir_b))
    else
      let ext_a := extension a.filename
      let ext_b := extension b.filename
      if ext_a ≠ ext_b then some (string_less ext_a ext_b)
      else some (string_less a.filename b.filename)
  | _, _ => none

/-- The comparator lambda of the `SIZE` case of `sort_directory`, `none` when a call
of `is_directory()` throws. -/
def size_sort_or_throw (a b : Entry) : Option Bool :=
  match a.is_directory with
  | none => none
  | some dir_a =>
    let size_a := if dir_a then 0 else a.file_size
    match b.is_directory with
    | none => none
    | some dir_b =>
      let size_b := if dir_b then 0 else b.file_size
      if size_a ≠ size_b then some (decide (size_a < size_b))
      else file_type_sort_or_throw a b

/-- The comparator lambda of the `DATE` case of `sort_directory`, `none` when a call
of `is_directory()` throws. -/
def date_sort_or_throw (a b : Entry) : Option Bool :=
  let time_a := a.last_write_time
  let time_b := b.last_write_time
  if time_a ≠ time_b then some (decide (time_a < time_b))
  else file_type_sort_or_throw a b

/-- The comparator that `sort_directory` hands to `std::sort`, `none` when a call of
`is_directory()` throws. -/
def comparator_or_throw : SortType → Entry → Entry → Option Bool
  | SortType.NAME => file_type_sort_or_throw
  | SortType.SIZE => size_sort_or_throw
  | SortType.DATE => date_sort_or_throw

/-! ## Auxiliary lemmas -/

theorem string_less_iff (a b : String) : string_less a b = true ↔ a.data < b.data := by
  simp [string_less]

theorem string_data_ne {a b : String} (h : a ≠ b) : a.data ≠ b.data :=
  fun hd => h (String.ext hd)

theorem file_type_sort_iff (a b : Node) :
    file_type_sort a b = true ↔
      (toLex (!a.is_directory, toLex ((extension a.filename).data, a.filename.data)) :
        Bool ×ₗ List Char ×ₗ List Char) <
      toLex (!b.is_directory, toLex ((extension b.filename).data, b.filename.data)) := by
  rw [Prod.Lex.lt_iff, Prod.Lex.lt_iff]
  simp only [file_type_sort, ofLex_toLex]
  by_cases hd : a.is_directory = b.is_directory
  · by_cases he : extension a.filename = extension b.filename
    · simp [hd, he, string_less_iff]
    · have := string_data_ne he
      simp [hd, he, string_less_iff, this]
  · cases ha : a.is_directory <;> cases hb : b.is_directory <;> simp_all

theorem tier_iff {α : Type} [LinearOrder α] (x y : α) (c : Bool) :
    (if x ≠ y then decide (x < y) else c) = true ↔ x < y ∨ (x = y ∧ c = true) := by
  by_cases h : x = y
  · simp [h]
  · simp [h]

/-- The comparator is the strict lexicographic order of `order_key`. -/
theorem comparator_iff (t : SortType) (a b : Node) :
    comparator t a b = true ↔ order_key t a < order_key t b := by
  unfold order_key
  rw [Prod.Lex.lt_iff]
  simp only [ofLex_toLex, ← file_type_sort_iff]
  cases t
  · simp [comparator]
  · simp only [comparator, size_sort, tier_iff, Nat.cast_lt, Nat.cast_inj]
  · simp only [comparator, date_sort, tier_iff]

theorem comparator_false_iff (t : SortType) (a b : Node) :
    comparator t b a = false ↔ order_key t a ≤ order_key t b := by
  rw [← not_lt, ← comparator_iff]
  cases comparator t b a <;> simp

theorem order_key_filename {t : SortType} {a b : Node} (h : order_key t a = order_key t b) :
    a.filename = b.filename := by
  unfold order_key at h
  have h1 := congrArg (fun k => (ofLex (ofLex (ofLex k).2).2).2) h
  exact String.ext h1

/-- The output of `sort_directory` is a permutation of its input. -/
theorem sort_directory_perm (l : List Node) (t : SortType) :
    (sort_directory l t).Perm l :=
  List.perm_insertionSort _ l

theorem mem_sort_directory {e : Node} {l : List Node} {t : SortType} :
    e ∈ sort_directory l t ↔ e ∈ l :=
  (sort_directory_perm l t).mem_iff

/-- The output of `sort_directory` is ascending for `order_key`. -/
theorem sort_directory_sorted (l : List Node) (t : SortType) :
    (sort_directory l t).Pairwise (fun a b => order_key t a ≤ order_key t b) := by
  haveI : IsTotal Node (fun a b => comparator t b a = false) :=
    ⟨fun a b => by
      rw [comparator_false_iff, comparator_false_iff]
      exact le_total _ _⟩
  haveI : IsTrans Node (fun a b => comparator t b a = false) :=
    ⟨fun a b c => by
      rw [comparator_false_iff, comparator_false_iff, comparator_false_iff]
      exact le_trans⟩
  have h := List.sorted_insertionSort (fun a b => comparator t b a = false) l
  exact List.Pairwise.imp (fun {a b} hab => (comparator_false_iff t a b).mp hab) h

/-! ## C1: directories before files -/

theorem dir_before_file {t : SortType} (ht : t ≠ SortType.DATE) {a b : Node}
    (ha : a.is_directory = true) (hb : b.is_directory = false) :
    order_key t a < order_key t b := by
  unfold order_key
  rw [Prod.Lex.lt_iff]
  simp only [ofLex_toLex]
  cases t with
  | NAME =>
    right
    refine ⟨rfl, ?_⟩
    rw [Prod.Lex.lt_iff]
    left
    simp [ha, hb]
  | SIZE =>
    simp only [ha, hb, if_true, Bool.false_eq_true, if_false]
    rcases Nat.eq_zero_or_pos b.file_size with h0 | hpos
    · right
      refine ⟨by simp [h0], ?_⟩
      rw [Prod.Lex.lt_iff]
      left
      simp
    · left
      exact_mod_cast hpos
  | DATE => exact absurd rfl ht

/-- C1 (as stated), refuted: under `DATE` a directory modified later than a file
is not ordered before it, and `sort_directory` puts the file first. -/
theorem directories_first_fails_for_date :
    ¬ (∀ (t : SortType) (a b : Node), a.is_directory = true → b.is_directory = false →
        comparator t a b = true ∧ comparator t b a = false) := by
  intro h
  have h1 := (h SortType.DATE (Node.dir "d" (some 2) []) (Node.file "f" (some 0) (some 1))
    rfl rfl).1
  revert h1
  decide

/-- C1 (amended): for the sort keys `NAME` and `SIZE`, a directory is ordered before
a non-directory by the comparator of `sort_directory`, whatever the sizes and
modification times, and in the output of `sort_directory` no non-directory
stands before a directory; for `DATE` the modification time is compared first,
so that a directory is ordered before a non-directory exactly when its time is
not the later one. -/
theorem directories_first :
    (∀ (t : SortType) (a b : Node), t ≠ SortType.DATE →
        a.is_directory = true → b.is_directory = false →
        comparator t a b = true ∧ comparator t b a = false) ∧
    (∀ (t : SortType) (l : List Node), t ≠ SortType.DATE →
        (sort_directory l t).Pairwise
          (fun x y => y.is_directory = true → x.is_directory = true)) ∧
    (∀ (a b : Node), a.is_directory = true → b.is_directory = false →
        (comparator SortType.DATE a b = true ↔ a.last_write_time ≤ b.last_write_time) ∧
        (comparator SortType.DATE b a = true ↔ b.last_write_time < a.last_write_time)) := by
  refine ⟨?_, ?_, ?_⟩
  · intro t a b ht ha hb
    have h := dir_before_file ht ha hb
    exact ⟨(comparator_iff t a b).mpr h, (comparator_false_iff t a b).mpr (le_of_lt h)⟩
  · intro t l ht
    refine List.Pairwise.imp ?_ (sort_directory_sorted l t)
    intro x y hxy hy
    cases hx : x.is_directory with
    | true => rfl
    | false => exact absurd (dir_before_file ht hy hx) (not_lt.mpr hxy)
  · intro a b ha hb
    have hab : file_type_sort a b = true := by simp [file_type_sort, ha, hb]
    have hba : file_type_sort b a = false := by simp [file_type_sort, ha, hb]
    constructor
    · simp only [comparator, date_sort, tier_iff, hab, and_true]
      exact le_iff_lt_or_eq.symm
    · simp only [comparator, date_sort, tier_iff, hba]
      simp

/-- Witness for C1 (amended): under `SIZE` the directory `src` of the scenario is
ordered before the file `README.md`. -/
theorem directories_first_witness :
    SortType.SIZE ≠ SortType.DATE ∧
    (Node.dir "src" (some 9) []).is_directory = true ∧
    (Node.file "README.md" (some 50) (some 3)).is_directory = false ∧
    comparator SortType.SIZE (Node.dir "src" (some 9) []) (Node.file "README.md" (some 50) (some 3))
      = true ∧
    comparator SortType.SIZE (Node.file "README.md" (some 50) (some 3)) (Node.dir "src" (some 9) [])
      = false :=
  ⟨by decide, rfl, rfl,
    directories_first.1 SortType.SIZE (Node.dir "src" (some 9) [])
      (Node.file "README.md" (some 50) (some 3)) (by decide) rfl rfl⟩

/-! ## C2: the comparator is a strict total order on distinct filenames -/

/-- C2: for every sort key the comparator of `sort_directory` is irreflexive and
transitive, and of two entries with distinct filenames exactly one is ordered
before the other, whatever their sizes and modification times (equal ones
included). -/
theorem comparator_strict_total_order (t : SortType) :
    (∀ a : Node, comparator t a a = false) ∧
    (∀ a b c : Node, comparator t a b = true → comparator t b c = true →
        comparator t a c = true) ∧
    (∀ a b : Node, a.filename ≠ b.filename →
        (comparator t a b = true ∧ comparator t b a = false) ∨
        (comparator t a b = false ∧ comparator t b a = true)) := by
  refine ⟨?_, ?_, ?_⟩
  · intro a
    exact (comparator_false_iff t a a).mpr (le_refl _)
  · intro a b c hab hbc
    rw [comparator_iff] at *
    exact lt_trans hab hbc
  · intro a b hne
    have hk : order_key t a ≠ order_key t b := fun h => hne (order_key_filename h)
    rcases lt_or_gt_of_ne hk with h | h
    · left
      exact ⟨(comparator_iff t a b).mpr h, (comparator_false_iff t a b).mpr (le_of_lt h)⟩
    · right
      exact ⟨(comparator_false_iff t b a).mpr (le_of_lt h), (comparator_iff t b a).mpr h⟩

/-- Witness for C2: two files of equal size and equal modification time and
distinct names are ordered one way only, under `SIZE`. -/
theorem comparator_strict_total_order_witness :
    (Node.file "x.c" (some 7) (some 1)).filename ≠ (Node.file "y.c" (some 7) (some 1)).filename ∧
    ((comparator SortType.SIZE (Node.file "x.c" (some 7) (some 1))
          (Node.file "y.c" (some 7) (some 1)) = true ∧
        comparator SortType.SIZE (Node.file "y.c" (some 7) (some 1))
          (Node.file "x.c" (some 7) (some 1)) = false) ∨
      (comparator SortType.SIZE (Node.file "x.c" (some 7) (some 1))
          (Node.file "y.c" (some 7) (some 1)) = false ∧
        comparator SortType.SIZE (Node.file "y.c" (some 7) (some 1))
          (Node.file "x.c" (some 7) (some 1)) = true)) :=
  ⟨by decide,
    (comparator_strict_total_order SortType.SIZE).2.2 (Node.file "x.c" (some 7) (some 1))
      (Node.file "y.c" (some 7) (some 1)) (by decide)⟩

/-! ## Unfolding `print_tree` -/

theorem weight_le_of_mem {e : Node} : ∀ {l : List Node}, e ∈ l → e.weight ≤ Node.weight_list l
  | [], h => by cases h
  | c :: rest, h => by
    rw [Node.weight_list]
    rcases List.mem_cons.mp h with rfl | h
    · omega
    · have := weight_le_of_mem h
      omega

theorem mem_of_collect_entries (s : Settings) :
    ∀ (l : List Node) (r : List Node), collect_entries s l = some r → ∀ e ∈ r, e ∈ l := by
  intro l
  induction l with
  | nil =>
    intro r h e he
    simp [collect_entries] at h
    subst h
    cases he
  | cons c rest ih =>
    intro r h e he
    rw [collect_entries] at h
    split at h
    · exact List.mem_cons_of_mem _ (ih r h e he)
    · split at h
      · cases h
      · exact List.mem_cons_of_mem _ (ih r h e he)
      · split at h
        · cases h
        · rename_i entries hrest
          cases h
          rcases List.mem_cons.mp he with rfl | he
          · exact List.mem_cons_self _ _
          · exact List.mem_cons_of_mem _ (ih entries hrest e he)

theorem print_entries_congr (r1 r2 : Node → String → Option (List Emitted)) (d : Int)
    (p : String) (c : Nat) :
    ∀ (l : List Node) (i : Nat), (∀ e ∈ l, ∀ q, r1 e q = r2 e q) →
      print_entries r1 d p c i l = print_entries r2 d p c i l := by
  intro l
  induction l with
  | nil => intro i _; simp [print_entries]
  | cons e rest ih =>
    intro i h
    simp only [print_entries]
    rw [ih (i + 1) (fun x hx q => h x (List.mem_cons_of_mem _ hx) q),
      h e (List.mem_cons_self _ _)]

theorem print_tree_trace_file (n : String) (sz : Option Nat) (m : Option Int) (s : Settings)
    (d : Int) (p : String) : print_tree_trace (Node.file n sz m) s d p = some [] := by
  rw [print_tree_trace]
  split <;> rfl

theorem print_tree_trace_dir (n : String) (m : Option Int) (cs : List Node) (s : Settings)
    (d : Int) (p : String) :
    print_tree_trace (Node.dir n m cs) s d p =
      if s.max_depth ≠ -1 ∧ d > s.max_depth then some []
      else
        match collect_entries s cs with
        | none => none
        | some listed =>
          print_entries (fun entry new_prefix => print_tree_trace entry s (d + 1) new_prefix)
            d p (sort_directory listed s.sort_type).length 0
            (sort_directory listed s.sort_type) := by
  rw [print_tree_trace]
  split
  · rfl
  · cases hc : collect_entries s cs with
    | none => simp [hc]
    | some listed =>
      simp only [hc]
      apply print_entries_congr
      intro e he q
      have h1 : e ∈ cs := mem_of_collect_entries s cs listed hc e (mem_sort_directory.mp he)
      have h2 := weight_le_of_mem h1
      have h3 : e.weight < (Node.dir n m cs).weight := by
        rw [Node.weight]; omega
      simp [h3]

theorem weight_pos (node : Node) : 0 < node.weight := by
  cases node <;> rw [Node.weight] <;> omega

theorem print_tree_fuel_eq (s : Settings) :
    ∀ (fuel : Nat) (node : Node) (d : Int) (p : String), node.weight ≤ fuel →
      print_tree_fuel fuel node s d p = print_tree_trace node s d p := by
  intro fuel
  induction fuel with
  | zero =>
    intro node d p h
    have := weight_pos node
    omega
  | succ fuel ih =>
    intro node d p h
    cases node with
    | file n sz m =>
      rw [print_tree_trace_file, print_tree_fuel]
      split <;> rfl
    | dir n m cs =>
      rw [print_tree_trace_dir, print_tree_fuel]
      split
      · rfl
      · cases hc : collect_entries s cs with
        | none => rfl
        | some listed =>
          simp only []
          apply print_entries_congr
          intro e he q
          apply ih
          have h1 : e ∈ cs := mem_of_collect_entries s cs listed hc e (mem_sort_directory.mp he)
          have h2 := weight_le_of_mem h1
          rw [Node.weight] at h
          omega

/-! ## C3: the scenario with sort=name -/

/-- C3 (as stated), refuted: on the scenario tree with the default settings the
output is not the four lines of the scenario (`b.md` is listed before `a.txt`). -/
theorem scenario_name_output_differs :
    print_tree proj (Settings.mk "" (-1) [] SortType.NAME false) 0 "" ≠
      some ["├─ src/", "│   ├─ a.txt", "│   └─ b.md", "└─ README.md"] := by
  rw [print_tree, ← print_tree_fuel_eq _ 5 _ _ _ (by decide)]
  decide

/-- C3 (amended): on the scenario tree, whatever the sizes and modification times,
with sort=name, no filter, no depth limit and hidden entries excluded,
`print_tree` writes exactly the lines `├─ src/`, `│   ├─ b.md`, `│   └─ a.txt`,
`└─ README.md`, in this order: within `src` the extension `.md` is compared
before `.txt`. -/
theorem scenario_name_output (size_a size_b size_readme : Option Nat)
    (time_a time_b time_readme time_src time_root : Option Int) (directory : String) :
    print_tree
        (proj_tree size_a size_b size_readme time_a time_b time_readme time_src time_root)
        (Settings.mk directory (-1) [] SortType.NAME false) 0 "" =
      some ["├─ src/", "│   ├─ b.md", "│   └─ a.txt", "└─ README.md"] := by
  have hw : (proj_tree size_a size_b size_readme time_a time_b time_readme time_src
      time_root).weight ≤ 5 := Nat.le_of_eq rfl
  rw [print_tree, ← print_tree_fuel_eq _ 5 _ _ _ hw]
  rfl

/-! ## C4: the lines written for one directory -/

/-- The text of the lines written by the second loop of `print_tree` from index `i`
on, when the recursive call for the entry of index `k` writes `sub k`. -/
theorem print_entries_lines (recurse : Node → String → Option (List Emitted)) (d : Int)
    (p : String) (count : Nat) :
    ∀ (l : List Node) (i : Nat) (sub : Nat → List String), i + l.length = count →
      (∀ (j : Nat) (c : Node), l[j]? = some c →
        if c.is_directory = true then
          (recurse c (p ++ continuation (decide (i + j + 1 = count)))).map
            (List.map Emitted.text) = some (sub (i + j))
        else sub (i + j) = []) →
      (print_entries recurse d p count i l).map (List.map Emitted.text) =
        some ((l.enumFrom i).flatMap
          (fun ic => entry_line p (decide (ic.1 + 1 = count)) ic.2 :: sub ic.1)) := by
  intro l
  induction l with
  | nil =>
    intro i sub _ _
    simp [print_entries]
  | cons e rest ih =>
    intro i sub hlen hsub
    have hlast : decide (i = count - 1) = decide (i + 1 = count) := by
      simp only [List.length_cons] at hlen
      apply Bool.decide_congr
      omega
    have hrest := ih (i + 1) sub (by simp only [List.length_cons] at hlen; omega)
      (fun j c hj => by
        have := hsub (j + 1) c (by simpa using hj)
        have e1 : i + (j + 1) = i + 1 + j := by omega
        rw [e1] at this
        exact this)
    have h0 := hsub 0 e (by simp)
    simp only [Nat.add_zero] at h0
    rw [print_entries]
    simp only [hlast, List.enumFrom_cons, List.flatMap_cons, entry_line, branch_glyph]
    simp only [continuation] at h0
    generalize decide (i + 1 = count) = b at h0 ⊢
    cases hr : print_entries recurse d p count (i + 1) rest with
    | none => rw [hr] at hrest; simp at hrest
    | some later =>
      rw [hr] at hrest
      simp only [Option.map_some', Option.some.injEq] at hrest
      cases hd : e.is_directory with
      | false =>
        rw [hd] at h0
        simp only [Bool.false_eq_true, if_false] at h0
        simp only [Bool.false_eq_true, if_false, Option.map_some', List.map_cons, List.nil_append,
          hrest, h0, entry_line, branch_glyph]
        rfl
      | true =>
        rw [hd] at h0
        simp only [if_true] at h0
        cases hc : recurse e (p ++ if b = true then "    " else "│   ") with
        | none => rw [hc] at h0; simp at h0
        | some below =>
          rw [hc] at h0
          simp only [Option.map_some', Option.some.injEq] at h0
          simp only [if_true, Option.map_some', List.map_cons, List.map_append,
            hrest, h0, entry_line, branch_glyph]
          rfl

/-- The recursion equation of `print_tree` on a directory. -/
theorem print_tree_dir (n : String) (m : Option Int) (cs : List Node) (s : Settings)
    (d : Int) (p : String) :
    print_tree (Node.dir n m cs) s d p =
      if s.max_depth ≠ -1 ∧ d > s.max_depth then some []
      else
        match collect_entries s cs with
        | none => none
        | some listed =>
          (print_entries (fun entry q => print_tree_trace entry s (d + 1) q)
            d p (sort_directory listed s.sort_type).length 0
            (sort_directory listed s.sort_type)).map (List.map Emitted.text) := by
  rw [print_tree, print_tree_trace_dir]
  split
  · rfl
  · cases collect_entries s cs <;> rfl

/-- C4: when `print_tree` visits a directory with inherited prefix `p` (the depth
limit does not cut the call) and the visible children, once sorted, are
`c_0 .. c_(n-1)`, the output is the concatenation, for `i = 0 .. n-1`, of the
line `p ++ g_i ++ name(c_i) ++ ("/" if c_i is a directory)` followed by the lines
`sub i` of the recursive call on `c_i` when `c_i` is a directory (nothing
otherwise), where `g_i` is the corner exactly when `i + 1 = n`; with no visible
child the output is empty. -/
theorem print_tree_directory_lines (name : String) (mtime : Option Int) (children : List Node)
    (s : Settings) (depth : Int) (p : String) (listed : List Node) (sub : Nat → List String)
    (hvisit : ¬ (s.max_depth ≠ -1 ∧ depth > s.max_depth))
    (hlisted : collect_entries s children = some listed)
    (hsub : ∀ (i : Nat) (c : Node), (sort_directory listed s.sort_type)[i]? = some c →
      if c.is_directory = true then
        print_tree c s (depth + 1)
          (p ++ continuation (decide (i + 1 = (sort_directory listed s.sort_type).length)))
          = some (sub i)
      else sub i = []) :
    print_tree (Node.dir name mtime children) s depth p =
        some ((sort_directory listed s.sort_type).enum.flatMap
          (fun ic =>
            entry_line p (decide (ic.1 + 1 = (sort_directory listed s.sort_type).length)) ic.2
              :: sub ic.1)) ∧
      (listed = [] → print_tree (Node.dir name mtime children) s depth p = some []) := by
  have main : print_tree (Node.dir name mtime children) s depth p =
      some ((sort_directory listed s.sort_type).enum.flatMap
        (fun ic =>
          entry_line p (decide (ic.1 + 1 = (sort_directory listed s.sort_type).length)) ic.2
            :: sub ic.1)) := by
    rw [print_tree_dir, if_neg hvisit, hlisted]
    simp only []
    rw [List.enum_eq_enumFrom]
    apply print_entries_lines
    · simp
    · intro j c hj
      have := hsub j c hj
      simpa [print_tree] using this
  refine ⟨main, ?_⟩
  intro hnil
  rw [main, hnil]
  rfl

/-- Witness for C4: the root of the scenario tree, whose sorted children are `src`
(with the two lines of its subtree) and `README.md`. -/
theorem print_tree_directory_lines_witness :
    print_tree proj (Settings.mk "" (-1) [] SortType.NAME false) 0 "" =
      some ["├─ src/", "│   ├─ b.md", "│   └─ a.txt", "└─ README.md"] := by
  have h := (print_tree_directory_lines "proj" (some 0)
    [Node.dir "src" (some 0)
        [Node.file "a.txt" (some 100) (some 0), Node.file "b.md" (some 5) (some 0)],
      Node.file "README.md" (some 50) (some 0)]
    (Settings.mk "" (-1) [] SortType.NAME false) 0 ""
    [Node.dir "src" (some 0)
        [Node.file "a.txt" (some 100) (some 0), Node.file "b.md" (some 5) (some 0)],
      Node.file "README.md" (some 50) (some 0)]
    (fun i => if i = 0 then ["│   ├─ b.md", "│   └─ a.txt"] else [])
    (by decide) rfl
    (by
      intro i c hc
      have hs : sort_directory
          [Node.dir "src" (some 0)
              [Node.file "a.txt" (some 100) (some 0), Node.file "b.md" (some 5) (some 0)],
            Node.file "README.md" (some 50) (some 0)] SortType.NAME =
          [Node.dir "src" (some 0)
              [Node.file "a.txt" (some 100) (some 0), Node.file "b.md" (some 5) (some 0)],
            Node.file "README.md" (some 50) (some 0)] := rfl
      simp only [hs] at hc ⊢
      match i, hc with
      | 0, hc =>
        simp only [List.getElem?_cons_zero, Option.some.injEq] at hc
        subst hc
        simp only [Node.is_directory, if_true]
        rw [print_tree, ← print_tree_fuel_eq _ 3 _ _ _ (by decide)]
        rfl
      | 1, hc =>
        simp only [List.getElem?_cons_succ, List.getElem?_cons_zero, Option.some.injEq] at hc
        subst hc
        simp [Node.is_directory]
      | k + 2, hc =>
        simp at hc)).1
  exact h

/-! ## Definedness -/

theorem front_of_ne_empty {f : String} (h : f ≠ "") :
    ∃ c rest, f.data = c :: rest ∧ front f = some c := by
  cases hd : f.data with
  | nil => exact absurd (String.ext hd) h
  | cons c rest => exact ⟨c, rest, rfl, by simp [front, hd]⟩

/-- The filter that `matches_filter` compares with, in the words of the
specification. -/
theorem code_filter_eq_normalized {f : String} {c : Char} (h : front f = some c) :
    tolower (if c ≠ '.' then "." ++ f else f) = normalized_filter f := by
  unfold front at h
  unfold normalized_filter
  rw [h]
  by_cases hc : c = '.'
  · simp [hc]
  · simp [hc]

/-- The loop of `matches_filter` over filters none of which is empty. -/
theorem filter_loop_spec (ext : String) :
    ∀ l : List String, (∀ f ∈ l, f ≠ "") →
      ∃ b : Bool, filter_loop ext l = some b ∧
        (b = true ↔ ∃ f ∈ l, ext = normalized_filter f) := by
  intro l
  induction l with
  | nil =>
    intro _
    exact ⟨false, rfl, by simp⟩
  | cons f rest ih =>
    intro hne
    obtain ⟨c, _, _, hfront⟩ := front_of_ne_empty (hne f (List.mem_cons_self _ _))
    obtain ⟨b, hb, hiff⟩ := ih (fun g hg => hne g (List.mem_cons_of_mem _ hg))
    rw [filter_loop, hfront]
    simp only [code_filter_eq_normalized hfront]
    by_cases heq : ext = normalized_filter f
    · exact ⟨true, by simp [heq], by simp [heq]⟩
    · refine ⟨b, by simp [heq, hb], ?_⟩
      rw [hiff]
      simp [heq]

theorem matches_filter_defined (entry : Node) (s : Settings) (h : ∀ f ∈ s.filters, f ≠ "") :
    ∃ b : Bool, matches_filter entry s = some b := by
  unfold matches_filter
  split
  · exact ⟨true, rfl⟩
  · split
    · exact ⟨false, rfl⟩
    · obtain ⟨b, hb, _⟩ := filter_loop_spec (tolower (extension entry.filename)) _ h
      exact ⟨b, hb⟩

theorem collect_entries_defined (s : Settings) (h : ∀ f ∈ s.filters, f ≠ "") :
    ∀ l : List Node, ∃ r : List Node, collect_entries s l = some r := by
  intro l
  induction l with
  | nil => exact ⟨[], rfl⟩
  | cons e rest ih =>
    obtain ⟨r, hr⟩ := ih
    obtain ⟨b, hb⟩ := matches_filter_defined e s h
    rw [collect_entries]
    split
    · exact ⟨r, hr⟩
    · rw [hb, hr]
      cases b
      · exact ⟨r, rfl⟩
      · exact ⟨e :: r, rfl⟩

theorem print_entries_defined (recurse : Node → String → Option (List Emitted)) (d : Int)
    (p : String) (count : Nat) :
    ∀ (l : List Node) (i : Nat), (∀ e ∈ l, ∀ q, ∃ o, recurse e q = some o) →
      ∃ out, print_entries recurse d p count i l = some out := by
  intro l
  induction l with
  | nil => intro i _; exact ⟨[], rfl⟩
  | cons e rest ih =>
    intro i h
    obtain ⟨later, hlater⟩ := ih (i + 1) (fun x hx q => h x (List.mem_cons_of_mem _ hx) q)
    rw [print_entries]
    simp only [hlater]
    cases hd : e.is_directory with
    | false => exact ⟨_, rfl⟩
    | true =>
      simp only [if_true]
      obtain ⟨o, ho⟩ := h e (List.mem_cons_self _ _)
        (p ++ if decide (i = count - 1) = true then "    " else "│   ")
      rw [ho]
      exact ⟨_, rfl⟩

/-- When no filter is the empty string, every call of `print_tree` is defined. -/
theorem print_tree_trace_defined (s : Settings) (h : ∀ f ∈ s.filters, f ≠ "") :
    ∀ (fuel : Nat) (node : Node) (d : Int) (q : String), node.weight ≤ fuel →
      ∃ out, print_tree_trace node s d q = some out := by
  intro fuel
  induction fuel with
  | zero =>
    intro node d q hw
    have := weight_pos node
    omega
  | succ fuel ih =>
    intro node d q hw
    cases node with
    | file n sz m => exact ⟨[], print_tree_trace_file n sz m s d q⟩
    | dir n m cs =>
      rw [print_tree_trace_dir]
      split
      · exact ⟨[], rfl⟩
      · obtain ⟨listed, hl⟩ := collect_entries_defined s h cs
        rw [hl]
        apply print_entries_defined
        intro e he q'
        apply ih
        have h1 : e ∈ cs := mem_of_collect_entries s cs listed hl e (mem_sort_directory.mp he)
        have h2 := weight_le_of_mem h1
        rw [Node.weight] at hw
        omega

/-! ## C5 and C6: prefixes and depths -/

/-- Unfolding of one round of the second loop of `print_tree`. -/
theorem print_entries_cons_some {recurse : Node → String → Option (List Emitted)} {d : Int}
    {p : String} {count i : Nat} {e : Node} {rest : List Node} {out : List Emitted}
    (h : print_entries recurse d p count i (e :: rest) = some out) :
    ∃ sub later,
      (if e.is_directory = true then
          recurse e (p ++ continuation (decide (i = count - 1))) = some sub
        else sub = []) ∧
      print_entries recurse d p count (i + 1) rest = some later ∧
      out = Emitted.mk d e (entry_line p (decide (i = count - 1)) e) :: (sub ++ later) := by
  rw [print_entries] at h
  simp only [] at h
  split at h
  · cases h
  · rename_i sub hsub
    split at h
    · cases h
    · rename_i later hlater
      cases h
      refine ⟨sub, later, ?_, hlater, rfl⟩
      cases hd : e.is_directory with
      | false =>
        rw [hd] at hsub
        simp only [Bool.false_eq_true, if_false, Option.some.injEq] at hsub ⊢
        exact hsub.symm
      | true =>
        rw [hd] at hsub
        simpa [continuation] using hsub

/-- Every line written by the second loop of `print_tree` is either the line of an
entry of the list or a line of the recursive call made for a directory entry. -/
theorem print_entries_mem (recurse : Node → String → Option (List Emitted)) (d : Int)
    (p : String) (count : Nat) :
    ∀ (l : List Node) (i : Nat) (out : List Emitted),
      print_entries recurse d p count i l = some out → ∀ em ∈ out,
        (∃ c ∈ l, ∃ last : Bool, em = Emitted.mk d c (entry_line p last c)) ∨
        (∃ c ∈ l, ∃ (last : Bool) (sub : List Emitted), c.is_directory = true ∧
          recurse c (p ++ continuation last) = some sub ∧ em ∈ sub) := by
  intro l
  induction l with
  | nil =>
    intro i out h em hem
    simp only [print_entries, Option.some.injEq] at h
    subst h
    cases hem
  | cons e rest ih =>
    intro i out h em hem
    obtain ⟨sub, later, hsub, hlater, rfl⟩ := print_entries_cons_some h
    rcases List.mem_cons.mp hem with rfl | hem
    · exact Or.inl ⟨e, List.mem_cons_self _ _, _, rfl⟩
    · rcases List.mem_append.mp hem with hem | hem
      · cases hd : e.is_directory with
        | false =>
          rw [hd] at hsub
          simp only [Bool.false_eq_true, if_false] at hsub
          subst hsub
          cases hem
        | true =>
          rw [hd] at hsub
          simp only [if_true] at hsub
          exact Or.inr ⟨e, List.mem_cons_self _ _, _, sub, hd, hsub, hem⟩
      · rcases ih (i + 1) later hlater em hem with ⟨c, hc, last, h1⟩ | ⟨c, hc, last, s, h1⟩
        · exact Or.inl ⟨c, List.mem_cons_of_mem _ hc, last, h1⟩
        · exact Or.inr ⟨c, List.mem_cons_of_mem _ hc, last, s, h1⟩

/-- The recursive call made by the second loop of `print_tree` for the directory
entry of index `i + j` is made with the prefix extended by the continuation
segment of that entry, and its lines are a contiguous part of the output. -/
theorem print_entries_sub (recurse : Node → String → Option (List Emitted)) (d : Int)
    (p : String) (count : Nat) :
    ∀ (l : List Node) (i : Nat) (out : List Emitted), i + l.length = count →
      print_entries recurse d p count i l = some out →
      ∀ (j : Nat) (c : Node), l[j]? = some c → c.is_directory = true →
        ∃ sub, recurse c (p ++ continuation (decide (i + j + 1 = count))) = some sub ∧
          sub <:+: out := by
  intro l
  induction l with
  | nil =>
    intro i out _ _ j c hj
    simp at hj
  | cons e rest ih =>
    intro i out hlen h j c hj hd
    obtain ⟨sub, later, hsub, hlater, rfl⟩ := print_entries_cons_some h
    have hlast : decide (i = count - 1) = decide (i + 1 = count) := by
      simp only [List.length_cons] at hlen
      apply Bool.decide_congr
      omega
    cases j with
    | zero =>
      simp only [List.getElem?_cons_zero, Option.some.injEq] at hj
      subst hj
      rw [hd, hlast] at hsub
      simp only [if_true] at hsub
      exact ⟨sub, hsub, ⟨[_], later, rfl⟩⟩
    | succ j =>
      simp only [List.getElem?_cons_succ] at hj
      obtain ⟨sub2, h1, h2⟩ := ih (i + 1) later
        (by simp only [List.length_cons] at hlen; omega) hlater j c hj hd
      have e1 : i + (j + 1) + 1 = i + 1 + j + 1 := by omega
      rw [e1]
      refine ⟨sub2, h1, ?_⟩
      exact h2.trans ((List.suffix_append sub later).isInfix.trans
        (List.suffix_cons _ _).isInfix)

/-- The shape of every line written by a call of `print_tree`: its depth tag lies
between the depth of the call and the depth limit, and its text is the prefix of
the call, one continuation segment for each level below the call, a branch
glyph, the name of the entry and `/` for a directory. -/
theorem print_tree_trace_shape (s : Settings) :
    ∀ (fuel : Nat) (node : Node) (d : Int) (q : String) (out : List Emitted),
      node.weight ≤ fuel → print_tree_trace node s d q = some out → ∀ em ∈ out,
        d ≤ em.depth ∧ (s.max_depth ≠ -1 → em.depth ≤ s.max_depth) ∧
        ∃ flags : List Bool, (flags.length : Int) = em.depth - d ∧
          ∃ last : Bool, em.text = entry_line (q ++ segments flags) last em.entry := by
  intro fuel
  induction fuel with
  | zero =>
    intro node d q out h
    have := weight_pos node
    omega
  | succ fuel ih =>
    intro node d q out hw h em hem
    cases node with
    | file n sz m =>
      rw [print_tree_trace_file] at h
      cases h
      cases hem
    | dir n m cs =>
      rw [print_tree_trace_dir] at h
      split at h
      · cases h
        cases hem
      · rename_i hguard
        cases hc : collect_entries s cs with
        | none => rw [hc] at h; cases h
        | some listed =>
          rw [hc] at h
          simp only [] at h
          rcases print_entries_mem _ _ _ _ _ _ _ h em hem with
            ⟨c, _, last, rfl⟩ | ⟨c, hcmem, last, sub, _, hsub, hsubmem⟩
          · refine ⟨le_refl _, ?_, [], by simp, last, ?_⟩
            · intro hmax
              by_contra hgt
              exact hguard ⟨hmax, by simpa using hgt⟩
            · simp [segments]
          · have h1 : c ∈ cs :=
              mem_of_collect_entries s cs listed hc c (mem_sort_directory.mp hcmem)
            have h2 := weight_le_of_mem h1
            have h3 : c.weight ≤ fuel := by
              rw [Node.weight] at hw
              omega
            obtain ⟨hd, hmax, flags, hlen, last2, htext⟩ := ih c (d + 1) _ sub h3 hsub em hsubmem
            refine ⟨by omega, hmax, last :: flags, ?_, last2, ?_⟩
            · simp only [List.length_cons]
              push_cast
              omega
            · rw [htext, segments, String.append_assoc]

theorem entry_line_append (q r : String) (last : Bool) (c : Node) :
    entry_line (q ++ r) last c = q ++ entry_line r last c := by
  simp only [entry_line, String.append_assoc]

/-- C5: (a) when a call of `print_tree` with prefix `p` that is not cut by the depth
limit recurses into the directory child of index `i` among its `n` sorted visible
children, the call is made with the prefix `p` extended by four spaces if the
child is the last sibling and by `│   ` otherwise, its lines are a contiguous part
of the output, and each of them begins with the extended prefix; (b) every line
written by `print_tree` called at depth 0 with the empty prefix, if its depth
tag is `k`, consists of `k` continuation segments followed by the branch glyph,
the name and `/` for a directory; (c) each continuation segment is `│   ` or
four spaces, four characters long. -/
theorem subtree_lines_carry_prefix :
    (∀ (name : String) (mtime : Option Int) (children : List Node) (s : Settings)
        (depth : Int) (p : String) (listed : List Node) (out : List Emitted),
        ¬ (s.max_depth ≠ -1 ∧ depth > s.max_depth) →
        collect_entries s children = some listed →
        print_tree_trace (Node.dir name mtime children) s depth p = some out →
        ∀ (i : Nat) (c : Node), (sort_directory listed s.sort_type)[i]? = some c →
          c.is_directory = true →
          ∃ sub : List Emitted,
            print_tree_trace c s (depth + 1)
              (p ++ if i + 1 = (sort_directory listed s.sort_type).length then "    "
                else "│   ") = some sub ∧
            sub <:+: out ∧
            ∀ em ∈ sub, ∃ rest : String,
              em.text = (p ++ if i + 1 = (sort_directory listed s.sort_type).length then "    "
                else "│   ") ++ rest) ∧
    (∀ (root : Node) (s : Settings) (out : List Emitted),
        print_tree_trace root s 0 "" = some out → ∀ em ∈ out,
          0 ≤ em.depth ∧
          ∃ flags : List Bool, (flags.length : Int) = em.depth ∧
            ∃ last : Bool, em.text = segments flags ++ branch_glyph last ++ em.entry.filename
              ++ (if em.entry.is_directory then "/" else "")) ∧
    (∀ last : Bool, (continuation last).length = 4 ∧
        continuation last = if last then "    " else "│   ") := by
  refine ⟨?_, ?_, ?_⟩
  · intro name mtime children s depth p listed out hvisit hlisted hout i c hi hdir
    rw [print_tree_trace_dir, if_neg hvisit, hlisted] at hout
    simp only [] at hout
    obtain ⟨sub, hsub, hinfix⟩ := print_entries_sub _ _ _ _ _ 0 out (by simp) hout i c hi hdir
    simp only [Nat.zero_add, continuation, decide_eq_true_eq] at hsub
    refine ⟨sub, hsub, hinfix, ?_⟩
    intro em hem
    obtain ⟨_, _, flags, _, last, htext⟩ :=
      print_tree_trace_shape s c.weight c _ _ sub (le_refl _) hsub em hem
    rw [entry_line_append] at htext
    exact ⟨_, htext⟩
  · intro root s out hout em hem
    obtain ⟨h0, _, flags, hlen, last, htext⟩ :=
      print_tree_trace_shape s root.weight root 0 "" out (le_refl _) hout em hem
    refine ⟨h0, flags, by simpa using hlen, last, ?_⟩
    rw [htext, entry_line_append]
    simp [entry_line]
  · intro last
    cases last <;> exact ⟨rfl, rfl⟩

/-- Witness for C5: in the scenario tree the lines of `src`, which is not the last
sibling, are written with the prefix `│   `, at depth 1. -/
theorem subtree_lines_carry_prefix_witness :
    ∃ sub : List Emitted,
      print_tree_trace
        (Node.dir "src" (some 0)
          [Node.file "a.txt" (some 100) (some 0), Node.file "b.md" (some 5) (some 0)])
        (Settings.mk "" (-1) [] SortType.NAME false) (0 + 1)
        ("" ++ if 0 + 1 =
            (sort_directory
              [Node.dir "src" (some 0)
                  [Node.file "a.txt" (some 100) (some 0), Node.file "b.md" (some 5) (some 0)],
                Node.file "README.md" (some 50) (some 0)] SortType.NAME).length
          then "    " else "│   ") = some sub ∧
      sub <:+:
        [Emitted.mk 0 (Node.dir "src" (some 0)
            [Node.file "a.txt" (some 100) (some 0), Node.file "b.md" (some 5) (some 0)])
            "├─ src/",
          Emitted.mk 1 (Node.file "b.md" (some 5) (some 0)) "│   ├─ b.md",
          Emitted.mk 1 (Node.file "a.txt" (some 100) (some 0)) "│   └─ a.txt",
          Emitted.mk 0 (Node.file "README.md" (some 50) (some 0)) "└─ README.md"] ∧
      ∀ em ∈ sub, ∃ rest : String,
        em.text = ("" ++ if 0 + 1 =
            (sort_directory
              [Node.dir "src" (some 0)
                  [Node.file "a.txt" (some 100) (some 0), Node.file "b.md" (some 5) (some 0)],
                Node.file "README.md" (some 50) (some 0)] SortType.NAME).length
          then "    " else "│   ") ++ rest :=
  subtree_lines_carry_prefix.1 "proj" (some 0)
    [Node.dir "src" (some 0)
        [Node.file "a.txt" (some 100) (some 0), Node.file "b.md" (some 5) (some 0)],
      Node.file "README.md" (some 50) (some 0)]
    (Settings.mk "" (-1) [] SortType.NAME false) 0 ""
    [Node.dir "src" (some 0)
        [Node.file "a.txt" (some 100) (some 0), Node.file "b.md" (some 5) (some 0)],
      Node.file "README.md" (some 50) (some 0)]
    [Emitted.mk 0 (Node.dir "src" (some 0)
        [Node.file "a.txt" (some 100) (some 0), Node.file "b.md" (some 5) (some 0)])
        "├─ src/",
      Emitted.mk 1 (Node.file "b.md" (some 5) (some 0)) "│   ├─ b.md",
      Emitted.mk 1 (Node.file "a.txt" (some 100) (some 0)) "│   └─ a.txt",
      Emitted.mk 0 (Node.file "README.md" (some 50) (some 0)) "└─ README.md"]
    (by decide) rfl
    ((print_tree_fuel_eq _ 5 proj 0 "" (by decide)).symm.trans (by rfl))
    0 _ rfl rfl

/-- C6: with a depth limit `d ≥ 0`, every line written by `print_tree` called at
depth 0 with the empty prefix has a depth tag between 0 and `d` (the children of
the root being at depth 0), and consists of that many continuation segments, so
at most `d` of them, followed by the branch glyph and the name; and the output
is defined whenever no filter is the empty string. -/
theorem depth_limit_respected (root : Node) (s : Settings) (hd : 0 ≤ s.max_depth) :
    ((∀ f ∈ s.filters, f ≠ "") → ∃ out, print_tree_trace root s 0 "" = some out) ∧
    ∀ out : List Emitted, print_tree_trace root s 0 "" = some out → ∀ em ∈ out,
      0 ≤ em.depth ∧ em.depth ≤ s.max_depth ∧
      ∃ flags : List Bool, (flags.length : Int) = em.depth ∧ (flags.length : Int) ≤ s.max_depth ∧
        ∃ last : Bool, em.text = segments flags ++ branch_glyph last ++ em.entry.filename
          ++ (if em.entry.is_directory then "/" else "") := by
  refine ⟨fun hf => print_tree_trace_defined s hf root.weight root 0 "" (le_refl _), ?_⟩
  intro out hout em hem
  obtain ⟨h0, hmax, flags, hlen, last, htext⟩ :=
    print_tree_trace_shape s root.weight root 0 "" out (le_refl _) hout em hem
  have hle : em.depth ≤ s.max_depth := hmax (by omega)
  have hlen2 : (flags.length : Int) = em.depth := by simpa using hlen
  refine ⟨h0, hle, flags, hlen2, by omega, last, ?_⟩
  rw [htext, entry_line_append]
  simp [entry_line]

/-- Witness for C6: with depth limit 0 the scenario tree yields the two lines of the
children of the root, both at depth 0. -/
theorem depth_limit_respected_witness :
    ∃ out : List Emitted,
      print_tree_trace proj (Settings.mk "" 0 [] SortType.NAME false) 0 "" = some out ∧
      out.length = 2 ∧ ∀ em ∈ out, 0 ≤ em.depth ∧ em.depth ≤ 0 :=
  ⟨_, (print_tree_fuel_eq _ 5 proj 0 "" (by decide)).symm.trans rfl, rfl,
    fun em hem =>
      have h := (depth_limit_respected proj (Settings.mk "" 0 [] SortType.NAME false)
        (by decide)).2 _ ((print_tree_fuel_eq _ 5 proj 0 "" (by decide)).symm.trans rfl) em hem
      ⟨h.1, h.2.1⟩⟩

/-! ## C7: the scenario with depth limit 0 -/

/-- C7 (as stated), refuted: on the scenario tree with `max_depth = 0` the output
of `print_tree` is not empty. -/
theorem scenario_depth_zero_not_empty :
    print_tree proj (Settings.mk "" 0 [] SortType.NAME false) 0 "" ≠ some [] := by
  rw [print_tree, ← print_tree_fuel_eq _ 5 _ _ _ (by decide)]
  decide

/-- C7 (amended): on the scenario tree, whatever the sizes and modification times,
`print_tree` with depth limit 0 (sort=name, no filter, hidden entries excluded)
writes exactly the two lines of the children of the root, `├─ src/` and
`└─ README.md`, and nothing of what `src` holds. -/
theorem scenario_depth_zero_output (size_a size_b size_readme : Option Nat)
    (time_a time_b time_readme time_src time_root : Option Int) (directory : String) :
    print_tree
        (proj_tree size_a size_b size_readme time_a time_b time_readme time_src time_root)
        (Settings.mk directory 0 [] SortType.NAME false) 0 "" =
      some ["├─ src/", "└─ README.md"] := by
  have hw : (proj_tree size_a size_b size_readme time_a time_b time_readme time_src
      time_root).weight ≤ 5 := Nat.le_of_eq rfl
  rw [print_tree, ← print_tree_fuel_eq _ 5 _ _ _ hw]
  rfl

/-! ## C8 and C9: the extension filter -/

/-- C8: with an empty filter list `matches_filter` returns true for every entry;
with a non-empty list of non-empty filters it returns false for a directory, and
for a non-directory it returns true exactly when the lower-cased extension of
the entry equals some filter after that filter is given a leading dot (if it
lacks one) and lower-cased. -/
theorem matches_filter_spec :
    (∀ (entry : Node) (s : Settings), s.filters = [] → matches_filter entry s = some true) ∧
    (∀ (entry : Node) (s : Settings), s.filters ≠ [] → (∀ f ∈ s.filters, f ≠ "") →
      (entry.is_directory = true → matches_filter entry s = some false) ∧
      (entry.is_directory = false →
        ∃ b : Bool, matches_filter entry s = some b ∧
          (b = true ↔
            ∃ f ∈ s.filters, tolower (extension entry.filename) = normalized_filter f))) := by
  constructor
  · intro entry s h
    simp [matches_filter, h]
  · intro entry s hne hall
    have hempty : s.filters.isEmpty = false := by
      cases hf : s.filters with
      | nil => exact absurd hf hne
      | cons _ _ => rfl
    constructor
    · intro hd
      simp [matches_filter, hempty, hd]
    · intro hd
      simp only [matches_filter, hempty, hd, Bool.false_eq_true, if_false]
      exact filter_loop_spec _ _ hall

/-- Witness for C8: with the filters `["md", ".TXT"]` the file `notes.txt` matches. -/
theorem matches_filter_spec_witness :
    (∃ b : Bool,
      matches_filter (Node.file "notes.txt" (some 1) (some 1))
        (Settings.mk "" (-1) ["md", ".TXT"] SortType.NAME false) = some b ∧
      (b = true ↔
        ∃ f ∈ ["md", ".TXT"],
          tolower (extension (Node.file "notes.txt" (some 1) (some 1)).filename) =
            normalized_filter f)) ∧
    matches_filter (Node.file "notes.txt" (some 1) (some 1))
        (Settings.mk "" (-1) ["md", ".TXT"] SortType.NAME false) = some true :=
  ⟨(matches_filter_spec.2 (Node.file "notes.txt" (some 1) (some 1))
      (Settings.mk "" (-1) ["md", ".TXT"] SortType.NAME false) (by decide) (by decide)).2 rfl,
    by decide⟩

/-- The filter that `matches_filter` compares with is a dot followed by the
lower-cased filter without its leading dot. -/
theorem normalized_filter_eq {f : String} (h : f ≠ "") :
    normalized_filter f = "." ++ tolower (strip_dot f) := by
  obtain ⟨c, rest, hdata, _⟩ := front_of_ne_empty h
  apply String.ext
  by_cases hc : c = '.'
  · subst hc
    simp [normalized_filter, strip_dot, tolower, hdata]
  · have hne : ¬ (some c = some '.') := fun h => hc (Option.some.inj h)
    simp [normalized_filter, strip_dot, tolower, hdata, hc]

theorem filter_loop_congr (ext : String) :
    ∀ l₁ l₂ : List String, List.Forall₂ (fun f g => same_filter f g = true) l₁ l₂ →
      (∀ f ∈ l₁, f ≠ "") → (∀ g ∈ l₂, g ≠ "") → filter_loop ext l₁ = filter_loop ext l₂ := by
  intro l₁ l₂ h
  induction h with
  | nil => intro _ _; rfl
  | @cons f g rest₁ rest₂ hfg _ ih =>
    intro h1 h2
    have hf := h1 f (List.mem_cons_self _ _)
    have hg := h2 g (List.mem_cons_self _ _)
    obtain ⟨c, _, _, hcf⟩ := front_of_ne_empty hf
    obtain ⟨c', _, _, hcg⟩ := front_of_ne_empty hg
    have hsame : normalized_filter f = normalized_filter g := by
      rw [normalized_filter_eq hf, normalized_filter_eq hg]
      simp only [same_filter, decide_eq_true_eq] at hfg
      rw [hfg]
    rw [filter_loop, filter_loop, hcf, hcg]
    simp only [code_filter_eq_normalized hcf, code_filter_eq_normalized hcg, hsame,
      ih (fun x hx => h1 x (List.mem_cons_of_mem _ hx))
        (fun x hx => h2 x (List.mem_cons_of_mem _ hx))]

/-- C9 (as stated), refuted: `matches_filter` does not give the same result for any
two filter lists that differ only in the case of letters and in a leading dot.
The filters `ét` and `Ét` differ only in the case of a letter, and on the file
`x.ÉT` the first gives false and the second true; the empty filter and `.`
differ only in the leading dot, and on the file `x.` the first is undefined
while the second gives true. -/
theorem filters_differing_in_case_disagree :
    (¬ ∀ (entry : Node) (s₁ s₂ : Settings),
        List.Forall₂ (fun f g => same_letters f g = true) s₁.filters s₂.filters →
        matches_filter entry s₁ = matches_filter entry s₂) ∧
    same_letters "ét" "Ét" = true ∧
    matches_filter (Node.file "x.ÉT" (some 1) (some 0))
        (Settings.mk "" (-1) ["ét"] SortType.NAME false) = some false ∧
    matches_filter (Node.file "x.ÉT" (some 1) (some 0))
        (Settings.mk "" (-1) ["Ét"] SortType.NAME false) = some true ∧
    same_letters "" "." = true ∧
    matches_filter (Node.file "x." (some 1) (some 0))
        (Settings.mk "" (-1) [""] SortType.NAME false) = none ∧
    matches_filter (Node.file "x." (some 1) (some 0))
        (Settings.mk "" (-1) ["."] SortType.NAME false) = some true := by
  refine ⟨?_, by decide, by decide, by decide, by decide, by decide, by decide⟩
  intro h
  have h1 := h (Node.file "x.ÉT" (some 1) (some 0))
    (Settings.mk "" (-1) ["ét"] SortType.NAME false)
    (Settings.mk "" (-1) ["Ét"] SortType.NAME false)
    (List.Forall₂.cons (by decide) List.Forall₂.nil)
  revert h1
  decide

/-- C9 (amended): `matches_filter` gives the same result for two lists of non-empty
filters that differ, entry by entry, only in the case of the ASCII letters
`A`-`Z` and in whether the entry starts with a dot; in particular the lists
`["txt"]` and `[".TXT"]` give the same result for every entry, and that result
is false for every directory. -/
theorem matches_filter_case_and_dot_insensitive :
    (∀ (entry : Node) (s₁ s₂ : Settings),
      List.Forall₂ (fun f g => same_filter f g = true) s₁.filters s₂.filters →
      (∀ f ∈ s₁.filters, f ≠ "") → (∀ g ∈ s₂.filters, g ≠ "") →
      matches_filter entry s₁ = matches_filter entry s₂) ∧
    (∀ (entry : Node) (s₁ s₂ : Settings), s₁.filters = ["txt"] → s₂.filters = [".TXT"] →
      matches_filter entry s₁ = matches_filter entry s₂ ∧
      (entry.is_directory = true → matches_filter entry s₁ = some false)) := by
  have general : ∀ (entry : Node) (s₁ s₂ : Settings),
      List.Forall₂ (fun f g => same_filter f g = true) s₁.filters s₂.filters →
      (∀ f ∈ s₁.filters, f ≠ "") → (∀ g ∈ s₂.filters, g ≠ "") →
      matches_filter entry s₁ = matches_filter entry s₂ := by
    intro entry s₁ s₂ h h1 h2
    have hempty : s₁.filters.isEmpty = s₂.filters.isEmpty := by
      generalize s₁.filters = l₁ at h
      generalize s₂.filters = l₂ at h
      cases h <;> rfl
    simp only [matches_filter, hempty, filter_loop_congr _ _ _ h h1 h2]
  refine ⟨general, ?_⟩
  intro entry s₁ s₂ e1 e2
  constructor
  · apply general
    · rw [e1, e2]
      exact List.Forall₂.cons (by decide) List.Forall₂.nil
    · rw [e1]; decide
    · rw [e2]; decide
  · intro hd
    simp [matches_filter, e1, hd]

/-- Witness for C9: the filter lists `["txt"]` and `[".TXT"]` agree on the file
`notes.TXT`, which both select. -/
theorem matches_filter_case_and_dot_insensitive_witness :
    matches_filter (Node.file "notes.TXT" (some 1) (some 1))
        (Settings.mk "" (-1) ["txt"] SortType.NAME false) =
      matches_filter (Node.file "notes.TXT" (some 1) (some 1))
        (Settings.mk "" (-1) [".TXT"] SortType.NAME false) ∧
    matches_filter (Node.file "notes.TXT" (some 1) (some 1))
        (Settings.mk "" (-1) ["txt"] SortType.NAME false) = some true :=
  ⟨matches_filter_case_and_dot_insensitive.1 (Node.file "notes.TXT" (some 1) (some 1))
      (Settings.mk "" (-1) ["txt"] SortType.NAME false)
      (Settings.mk "" (-1) [".TXT"] SortType.NAME false)
      (List.Forall₂.cons (by decide) List.Forall₂.nil) (by decide) (by decide),
    by decide⟩

/-! ## C10: the scenario with filter `md` -/

/-- C10 (as stated), refuted: on the scenario tree with the filter list `["md"]`
the output of `print_tree` does not hold a line for `src`, a line for `b.md` and
a line for `README.md` while holding none for `a.txt`. -/
theorem scenario_filter_md_no_src_line :
    ¬ (∃ out : List Emitted,
        print_tree_trace proj (Settings.mk "" (-1) ["md"] SortType.NAME false) 0 "" = some out ∧
        (∃ e ∈ out, e.entry.filename = "src") ∧
        (∃ e ∈ out, e.entry.filename = "b.md") ∧
        (∃ e ∈ out, e.entry.filename = "README.md") ∧
        (∀ e ∈ out, e.entry.filename ≠ "a.txt")) := by
  rintro ⟨out, h, ⟨e, he, hname⟩, -⟩
  rw [← print_tree_fuel_eq _ 5 _ _ _ (by decide)] at h
  have hout : print_tree_fuel 5 proj (Settings.mk "" (-1) ["md"] SortType.NAME false) 0 "" =
      some [Emitted.mk 0 (Node.file "README.md" (some 50) (some 0)) "└─ README.md"] := rfl
  rw [hout] at h
  cases h
  rw [List.mem_singleton] at he
  subst he
  revert hname
  decide

/-- C10 (amended): on the scenario tree, whatever the sizes and modification times,
`print_tree` with the filter list `["md"]` writes exactly one line,
`└─ README.md`: the directory `src` does not pass the filter, so it is neither
listed nor entered, and no line is written for `b.md` or `a.txt`. -/
theorem scenario_filter_md_output (size_a size_b size_readme : Option Nat)
    (time_a time_b time_readme time_src time_root : Option Int) (directory : String) :
    print_tree
        (proj_tree size_a size_b size_readme time_a time_b time_readme time_src time_root)
        (Settings.mk directory (-1) ["md"] SortType.NAME false) 0 "" =
      some ["└─ README.md"] := by
  have hw : (proj_tree size_a size_b size_readme time_a time_b time_readme time_src
      time_root).weight ≤ 5 := Nat.le_of_eq rfl
  rw [print_tree, ← print_tree_fuel_eq _ 5 _ _ _ hw]
  rfl

/-! ## C11: hidden entries -/

theorem filename_without_hidden (c : Node) : c.without_hidden.filename = c.filename := by
  cases c <;> rfl

theorem is_directory_without_hidden (c : Node) :
    c.without_hidden.is_directory = c.is_directory := by
  cases c <;> rfl

theorem order_key_without_hidden (t : SortType) (c : Node) :
    order_key t c.without_hidden = order_key t c := by
  cases c with
  | file n sz m => rfl
  | dir n m cs => cases t <;> cases m <;> rfl

theorem comparator_without_hidden (t : SortType) (a b : Node) :
    comparator t a.without_hidden b.without_hidden = comparator t a b := by
  have h : (comparator t a.without_hidden b.without_hidden = true) ↔ (comparator t a b = true) := by
    rw [comparator_iff, comparator_iff, order_key_without_hidden, order_key_without_hidden]
  cases h1 : comparator t a.without_hidden b.without_hidden <;>
    cases h2 : comparator t a b <;> simp_all

theorem matches_filter_without_hidden (c : Node) (s : Settings) :
    matches_filter c.without_hidden s = matches_filter c s := by
  simp only [matches_filter, filename_without_hidden, is_directory_without_hidden]

theorem is_hidden_without_hidden (c : Node) : is_hidden c.without_hidden = is_hidden c := by
  simp only [is_hidden, filename_without_hidden]

theorem without_hidden_list_eq (l : List Node) :
    Node.without_hidden_list l =
      (l.filter (fun c => !is_hidden c)).map Node.without_hidden := by
  induction l with
  | nil => rfl
  | cons c rest ih =>
    rw [Node.without_hidden_list, ih]
    cases h : is_hidden c <;> simp [h]

/-- The first loop of `print_tree` selects, in the snapshot without hidden entries,
the counterparts of the entries it selects in the snapshot itself. -/
theorem collect_entries_without_hidden (s : Settings) (hs : s.include_hidden = false) :
    ∀ l : List Node, collect_entries s (Node.without_hidden_list l) =
      (collect_entries s l).map (List.map Node.without_hidden) := by
  intro l
  induction l with
  | nil => rfl
  | cons c rest ih =>
    rw [Node.without_hidden_list]
    cases h : is_hidden c with
    | true =>
      simp only [if_true]
      rw [ih, collect_entries]
      simp [hs, h]
    | false =>
      simp only [Bool.false_eq_true, if_false]
      rw [collect_entries, collect_entries]
      simp only [hs, is_hidden_without_hidden, h, matches_filter_without_hidden, ih]
      cases matches_filter c s with
      | none => rfl
      | some b =>
        cases b with
        | false => rfl
        | true =>
          cases collect_entries s rest <;> rfl

theorem sort_directory_map_without_hidden (l : List Node) (t : SortType) :
    sort_directory (l.map Node.without_hidden) t =
      (sort_directory l t).map Node.without_hidden := by
  unfold sort_directory std_sort
  symm
  apply List.map_insertionSort
  intro a _ b _
  rw [comparator_without_hidden]

/-- One round of the second loop of `print_tree` writes the same text when the
recursive call and the later rounds do. -/
theorem print_entries_step_text (line₁ line₂ : Emitted) (b₁ b₂ l₁ l₂ : Option (List Emitted))
    (hline : line₁.text = line₂.text)
    (hb : b₁.map (List.map Emitted.text) = b₂.map (List.map Emitted.text))
    (hl : l₁.map (List.map Emitted.text) = l₂.map (List.map Emitted.text)) :
    (match b₁ with
      | none => none
      | some sub =>
        match l₁ with
        | none => none
        | some later => some (line₁ :: (sub ++ later))).map (List.map Emitted.text) =
    (match b₂ with
      | none => none
      | some sub =>
        match l₂ with
        | none => none
        | some later => some (line₂ :: (sub ++ later))).map (List.map Emitted.text) := by
  cases b₁ <;> cases b₂ <;> cases l₁ <;> cases l₂ <;> simp_all

/-- The second loop of `print_tree` writes the same text for a list of entries and
for their counterparts without hidden entries, when the recursive calls do. -/
theorem print_entries_without_hidden (r₁ r₂ : Node → String → Option (List Emitted)) (d : Int)
    (p : String) (count : Nat) :
    ∀ (l : List Node) (i : Nat),
      (∀ e ∈ l, ∀ q, (r₂ e.without_hidden q).map (List.map Emitted.text) =
        (r₁ e q).map (List.map Emitted.text)) →
      (print_entries r₂ d p count i (l.map Node.without_hidden)).map (List.map Emitted.text) =
        (print_entries r₁ d p count i l).map (List.map Emitted.text) := by
  intro l
  induction l with
  | nil => intro i _; rfl
  | cons e rest ih =>
    intro i h
    have hrest := ih (i + 1) (fun x hx q => h x (List.mem_cons_of_mem _ hx) q)
    have he := h e (List.mem_cons_self _ _)
    simp only [List.map_cons, print_entries, filename_without_hidden,
      is_directory_without_hidden]
    apply print_entries_step_text
    · rfl
    · cases hd : e.is_directory with
      | false => rfl
      | true => exact he _
    · exact hrest

/-- With hidden entries excluded, `print_tree` writes the same lines for a snapshot
and for the snapshot without hidden entries. -/
theorem print_tree_without_hidden (s : Settings) (hs : s.include_hidden = false) :
    ∀ (fuel : Nat) (node : Node) (d : Int) (p : String), node.weight ≤ fuel →
      print_tree node.without_hidden s d p = print_tree node s d p := by
  intro fuel
  induction fuel with
  | zero =>
    intro node d p hw
    have := weight_pos node
    omega
  | succ fuel ih =>
    intro node d p hw
    cases node with
    | file n sz m => rfl
    | dir n m cs =>
      rw [Node.without_hidden, print_tree_dir, print_tree_dir,
        collect_entries_without_hidden s hs]
      split
      · rfl
      · cases hc : collect_entries s cs with
        | none => rfl
        | some listed =>
          simp only [Option.map_some', sort_directory_map_without_hidden, List.length_map]
          apply print_entries_without_hidden
          intro e he q
          have h1 : e ∈ cs := mem_of_collect_entries s cs listed hc e (mem_sort_directory.mp he)
          have h2 := weight_le_of_mem h1
          rw [Node.weight] at hw
          exact ih e (d + 1) q (by omega)

theorem not_hidden_of_collect_entries (s : Settings) (hs : s.include_hidden = false) :
    ∀ (l r : List Node), collect_entries s l = some r → ∀ e ∈ r, is_hidden e = false := by
  intro l
  induction l with
  | nil =>
    intro r h e he
    simp only [collect_entries, Option.some.injEq] at h
    subst h
    cases he
  | cons c rest ih =>
    intro r h e he
    rw [collect_entries] at h
    split at h
    · exact ih r h e he
    · rename_i hvis
      split at h
      · cases h
      · exact ih r h e he
      · split at h
        · cases h
        · rename_i entries hrest
          cases h
          rcases List.mem_cons.mp he with rfl | he
          · simpa [hs] using hvis
          · exact ih entries hrest e he

/-- With hidden entries excluded, no line is written for an entry that `is_hidden`
holds of. -/
theorem print_tree_trace_not_hidden (s : Settings) (hs : s.include_hidden = false) :
    ∀ (fuel : Nat) (node : Node) (d : Int) (q : String) (out : List Emitted),
      node.weight ≤ fuel → print_tree_trace node s d q = some out →
      ∀ em ∈ out, is_hidden em.entry = false := by
  intro fuel
  induction fuel with
  | zero =>
    intro node d q out hw
    have := weight_pos node
    omega
  | succ fuel ih =>
    intro node d q out hw h em hem
    cases node with
    | file n sz m =>
      rw [print_tree_trace_file] at h
      cases h
      cases hem
    | dir n m cs =>
      rw [print_tree_trace_dir] at h
      split at h
      · cases h
        cases hem
      · cases hc : collect_entries s cs with
        | none => rw [hc] at h; cases h
        | some listed =>
          rw [hc] at h
          simp only [] at h
          rcases print_entries_mem _ _ _ _ _ _ _ h em hem with
            ⟨c, hcmem, last, rfl⟩ | ⟨c, hcmem, last, sub, _, hsub, hsubmem⟩
          · exact not_hidden_of_collect_entries s hs cs listed hc c
              (mem_sort_directory.mp hcmem)
          · have h1 : c ∈ cs :=
              mem_of_collect_entries s cs listed hc c (mem_sort_directory.mp hcmem)
            have h2 := weight_le_of_mem h1
            rw [Node.weight] at hw
            exact ih c (d + 1) _ sub (by omega) hsub em hsubmem

theorem is_hidden_of_dot_append (e : Node) (rest : String) (h : e.filename = "." ++ rest) :
    is_hidden e = true := by
  rw [is_hidden, h]
  rfl

/-- With hidden entries included, the first loop of `print_tree` keeps exactly the
entries that pass `matches_filter`. -/
theorem collect_entries_include_hidden (s : Settings) (hs : s.include_hidden = true) :
    ∀ (l r : List Node), collect_entries s l = some r →
      r = l.filter (fun e => decide (matches_filter e s = some true)) := by
  intro l
  induction l with
  | nil =>
    intro r h
    simp only [collect_entries, Option.some.injEq] at h
    subst h
    rfl
  | cons c rest ih =>
    intro r h
    rw [collect_entries] at h
    simp only [hs, Bool.not_true, Bool.false_and, Bool.false_eq_true, if_false] at h
    cases hm : matches_filter c s with
    | none => rw [hm] at h; cases h
    | some b =>
      rw [hm] at h
      cases b with
      | false =>
        simp only [] at h
        rw [ih r h]
        simp [hm]
      | true =>
        simp only [] at h
        cases hr : collect_entries s rest with
        | none => rw [hr] at h; cases h
        | some entries =>
          rw [hr] at h
          cases h
          rw [ih entries hr]
          simp [hm]

/-- C11 (as stated), refuted: with hidden entries excluded, the entries located in a
root directory whose own name begins with `.` are still written. -/
theorem entries_beneath_hidden_root_emitted :
    ¬ (∀ (root : Node) (s : Settings) (out : List Emitted), s.include_hidden = false →
        print_tree_trace root s 0 "" = some out → is_hidden root = true →
        ∀ em ∈ out, em.entry ∉ root.children) := by
  intro h
  have h1 := h (Node.dir ".git" (some 0) [Node.file "config" (some 1) (some 0)])
    (Settings.mk "" (-1) [] SortType.NAME false)
    [Emitted.mk 0 (Node.file "config" (some 1) (some 0)) "└─ config"] rfl
    ((print_tree_fuel_eq _ 2 _ 0 "" (by decide)).symm.trans (by rfl)) (by decide)
    _ (List.mem_singleton.mpr rfl)
  exact h1 (List.mem_singleton.mpr rfl)

/-- C11 (amended): with `include_hidden = false`, no line written by `print_tree`
names an entry whose filename begins with `.`, and the lines written are those
written for the snapshot from which every entry below the root whose name begins
with `.` has been removed together with all that lies beneath it (the root
itself is never checked); with `include_hidden = true` the first loop keeps
exactly the entries that pass `matches_filter`, hidden or not. -/
theorem hidden_entries_excluded :
    (∀ (root : Node) (s : Settings) (depth : Int) (p : String) (out : List Emitted),
        s.include_hidden = false → print_tree_trace root s depth p = some out →
        ∀ em ∈ out, is_hidden em.entry = false ∧
          ∀ rest : String, em.entry.filename ≠ "." ++ rest) ∧
    (∀ (root : Node) (s : Settings) (depth : Int) (p : String), s.include_hidden = false →
        print_tree root.without_hidden s depth p = print_tree root s depth p) ∧
    (∀ (s : Settings) (listing entries : List Node), s.include_hidden = true →
        collect_entries s listing = some entries →
        entries = listing.filter (fun e => decide (matches_filter e s = some true))) := by
  refine ⟨?_, ?_, ?_⟩
  · intro root s depth p out hs hout em hem
    have hh := print_tree_trace_not_hidden s hs root.weight root depth p out (le_refl _)
      hout em hem
    refine ⟨hh, ?_⟩
    intro rest hrest
    rw [is_hidden_of_dot_append em.entry rest hrest] at hh
    cases hh
  · intro root s depth p hs
    exact print_tree_without_hidden s hs root.weight root depth p (le_refl _)
  · intro s listing entries hs h
    exact collect_entries_include_hidden s hs listing entries h

/-- Witness for C11 (amended): in a root holding `.git` (with `config` in it) and
`main.c`, only `main.c` is written, as for the root holding `main.c` alone. -/
theorem hidden_entries_excluded_witness :
    (Settings.mk "" (-1) [] SortType.NAME false).include_hidden = false ∧
    print_tree
        (Node.dir "work" (some 0)
          [Node.dir ".git" (some 0) [Node.file "config" (some 1) (some 0)],
            Node.file "main.c" (some 1) (some 0)]).without_hidden
        (Settings.mk "" (-1) [] SortType.NAME false) 0 "" =
      print_tree
        (Node.dir "work" (some 0)
          [Node.dir ".git" (some 0) [Node.file "config" (some 1) (some 0)],
            Node.file "main.c" (some 1) (some 0)])
        (Settings.mk "" (-1) [] SortType.NAME false) 0 "" ∧
    print_tree
        (Node.dir "work" (some 0)
          [Node.dir ".git" (some 0) [Node.file "config" (some 1) (some 0)],
            Node.file "main.c" (some 1) (some 0)])
        (Settings.mk "" (-1) [] SortType.NAME false) 0 "" = some ["└─ main.c"] :=
  ⟨rfl,
    hidden_entries_excluded.2.1 _ (Settings.mk "" (-1) [] SortType.NAME false) 0 "" rfl,
    by
      rw [print_tree, ← print_tree_fuel_eq _ 4 _ _ _ (by decide)]
      decide⟩

/-! ## C12: the comparator and the three-tier rule -/

/-- C12: for the sort keys `NAME` and `SIZE` the comparator of `sort_directory` gives,
on every pair of entries, the result of the three-tier rule of the
specification (directories first, then for `SIZE` the size with directories
counted as 0, then the extension, then the filename); in particular the `SIZE`
lambda, which compares the size before directory-ness, orders every pair as the
directory-first rule does. -/
theorem comparator_eq_three_tier :
    (∀ a b : Node, comparator SortType.NAME a b = three_tier SortType.NAME a b) ∧
    (∀ a b : Node, comparator SortType.SIZE a b = three_tier SortType.SIZE a b) := by
  constructor
  · intro a b
    simp only [comparator, file_type_sort, three_tier]
    rcases Bool.eq_false_or_eq_true a.is_directory with ha | ha <;>
      rcases Bool.eq_false_or_eq_true b.is_directory with hb | hb <;>
      simp [ha, hb]
  · intro a b
    simp only [comparator, size_sort, file_type_sort, three_tier, size_bytes]
    rcases Bool.eq_false_or_eq_true a.is_directory with ha | ha <;>
      rcases Bool.eq_false_or_eq_true b.is_directory with hb | hb <;>
      simp [ha, hb]
    · omega
    · split <;> rfl

/-! ## C13: the output does not depend on the listing order -/

/-- The first loop of `print_tree` is a filter, undefined when `matches_filter` is
undefined on an entry that is not skipped. -/
theorem collect_entries_eq (s : Settings) :
    ∀ l : List Node, collect_entries s l =
      if l.any (undefined_at s) then none else some (l.filter (selected s)) := by
  intro l
  induction l with
  | nil => rfl
  | cons e rest ih =>
    rw [collect_entries, ih]
    simp only [List.any_cons, List.filter_cons, undefined_at, selected]
    rcases Bool.eq_false_or_eq_true (!s.include_hidden && is_hidden e) with hh | hh
    · simp [hh]
    · simp only [hh, Bool.false_eq_true, if_false, Bool.not_false, Bool.true_and]
      cases hm : matches_filter e s with
      | none => simp
      | some b =>
        cases b with
        | false => simp
        | true =>
          simp only [Option.isNone_some, Bool.false_or, decide_True, if_true]
          rcases Bool.eq_false_or_eq_true (rest.any (undefined_at s)) with hr | hr <;>
            simp [hr]

theorem eq_of_map_eq_of_inj_on {α β : Type} (f : α → β) :
    ∀ (A B : List α), A.map f = B.map f →
      (∀ a ∈ A, ∀ b ∈ B, f a = f b → a = b) → A = B := by
  intro A
  induction A with
  | nil =>
    intro B h _
    cases B with
    | nil => rfl
    | cons b B => cases h
  | cons a A ih =>
    intro B h hinj
    cases B with
    | nil => cases h
    | cons b B =>
      simp only [List.map_cons, List.cons.injEq] at h
      have hab : a = b := hinj a (List.mem_cons_self _ _) b (List.mem_cons_self _ _) h.1
      subst hab
      rw [ih B h.2 (fun x hx y hy =>
        hinj x (List.mem_cons_of_mem _ hx) y (List.mem_cons_of_mem _ hy))]

/-- Two listings of the same entries, with pairwise distinct names, are sorted to
the same list. -/
theorem sort_directory_eq_of_perm {l₁ l₂ : List Node} (t : SortType) (hp : l₁.Perm l₂)
    (hn : (l₁.map Node.filename).Nodup) : sort_directory l₁ t = sort_directory l₂ t := by
  have hperm : (sort_directory l₁ t).Perm (sort_directory l₂ t) :=
    (sort_directory_perm l₁ t).trans (hp.trans (sort_directory_perm l₂ t).symm)
  have hkeys : (sort_directory l₁ t).map (order_key t) = (sort_directory l₂ t).map (order_key t) := by
    apply List.eq_of_perm_of_sorted (r := (· ≤ ·)) (hperm.map _)
    · exact (List.pairwise_map.mpr (sort_directory_sorted l₁ t))
    · exact (List.pairwise_map.mpr (sort_directory_sorted l₂ t))
  apply eq_of_map_eq_of_inj_on (order_key t) _ _ hkeys
  intro a ha b hb hab
  have ha1 : a ∈ l₁ := mem_sort_directory.mp ha
  have hb1 : b ∈ l₁ := hp.mem_iff.mpr (mem_sort_directory.mp hb)
  exact List.inj_on_of_nodup_map hn ha1 hb1 (order_key_filename hab)

theorem alike_refl (s : Settings) (x : Node) : alike s x x :=
  ⟨rfl, rfl, fun _ => rfl, fun _ _ => rfl⟩

theorem alike_comparator {s : Settings} {x y x' y' : Node} (t : SortType)
    (hx : alike s x x') (hy : alike s y y') : comparator t x y = comparator t x' y' := by
  have h : (comparator t x y = true) ↔ (comparator t x' y' = true) := by
    rw [comparator_iff, comparator_iff, hx.2.2.1 t, hy.2.2.1 t]
  cases h1 : comparator t x y <;> cases h2 : comparator t x' y' <;> simp_all

theorem alike_undefined_at {s : Settings} {x y : Node} (h : alike s x y) :
    undefined_at s x = undefined_at s y := by
  simp only [undefined_at, is_hidden, matches_filter, h.1, h.2.1]

theorem alike_selected {s : Settings} {x y : Node} (h : alike s x y) :
    selected s x = selected s y := by
  simp only [selected, is_hidden, matches_filter, h.1, h.2.1]

theorem forall₂_alike_any {s : Settings} {l l' : List Node} (h : List.Forall₂ (alike s) l l') :
    l.any (undefined_at s) = l'.any (undefined_at s) := by
  induction h with
  | nil => rfl
  | cons hxy _ ih => simp only [List.any_cons, alike_undefined_at hxy, ih]

theorem forall₂_alike_filter {s : Settings} {l l' : List Node}
    (h : List.Forall₂ (alike s) l l') :
    List.Forall₂ (alike s) (l.filter (selected s)) (l'.filter (selected s)) := by
  induction h with
  | nil => exact List.Forall₂.nil
  | @cons x y l l' hxy _ ih =>
    simp only [List.filter_cons, alike_selected hxy]
    split
    · exact List.Forall₂.cons hxy ih
    · exact ih

theorem forall₂_alike_ordered_insert {s : Settings} (t : SortType) {a a' : Node}
    (ha : alike s a a') {l l' : List Node} (h : List.Forall₂ (alike s) l l') :
    List.Forall₂ (alike s)
      (List.orderedInsert (fun a b => comparator t b a = false) a l)
      (List.orderedInsert (fun a b => comparator t b a = false) a' l') := by
  induction h with
  | nil => exact List.Forall₂.cons ha List.Forall₂.nil
  | @cons x y l l' hxy hl ih =>
    simp only [List.orderedInsert, alike_comparator t hxy ha]
    split
    · exact List.Forall₂.cons ha (List.Forall₂.cons hxy hl)
    · exact List.Forall₂.cons hxy ih

theorem forall₂_alike_sort {s : Settings} (t : SortType) {l l' : List Node}
    (h : List.Forall₂ (alike s) l l') :
    List.Forall₂ (alike s) (sort_directory l t) (sort_directory l' t) := by
  unfold sort_directory std_sort
  induction h with
  | nil => exact List.Forall₂.nil
  | cons hxy _ ih => exact forall₂_alike_ordered_insert t hxy ih

/-- The second loop of `print_tree` writes the same text for two lists of entries
that are alike pairwise. -/
theorem print_entries_alike (s : Settings) (d : Int) (p : String) (count : Nat) :
    ∀ (l l' : List Node), List.Forall₂ (alike s) l l' → ∀ i : Nat,
      (print_entries (fun e q => print_tree_trace e s (d + 1) q) d p count i l).map
          (List.map Emitted.text) =
        (print_entries (fun e q => print_tree_trace e s (d + 1) q) d p count i l').map
          (List.map Emitted.text) := by
  intro l l' h
  induction h with
  | nil => intro i; rfl
  | @cons x y l l' hxy _ ih =>
    intro i
    simp only [print_entries]
    apply print_entries_step_text
    · show _ ++ _ ++ x.filename ++ _ = _ ++ _ ++ y.filename ++ _
      rw [hxy.1, hxy.2.1]
    · rw [hxy.2.1]
      cases y.is_directory with
      | false => rfl
      | true => exact hxy.2.2.2 (d + 1) _
    · exact ih (i + 1)

/-- The lines written for a directory depend on its listing only through entries
that are alike pairwise. -/
theorem print_tree_dir_alike (s : Settings) (n : String) (m : Option Int) {cs cs' : List Node}
    (h : List.Forall₂ (alike s) cs cs') (d : Int) (p : String) :
    print_tree (Node.dir n m cs) s d p = print_tree (Node.dir n m cs') s d p := by
  rw [print_tree_dir, print_tree_dir, collect_entries_eq, collect_entries_eq,
    forall₂_alike_any h]
  by_cases hg : s.max_depth ≠ -1 ∧ d > s.max_depth
  · rw [if_pos hg, if_pos hg]
  · rw [if_neg hg, if_neg hg]
    rcases Bool.eq_false_or_eq_true (cs'.any (undefined_at s)) with ha | ha
    · rw [if_pos ha, if_pos ha]
    · have hn : ¬ (cs'.any (undefined_at s) = true) := by simp [ha]
      rw [if_neg hn, if_neg hn]
      have hs := forall₂_alike_sort s.sort_type (forall₂_alike_filter h)
      simp only [hs.length_eq]
      exact print_entries_alike s d p _ _ _ hs 0

theorem relisted_attributes {a b : Node} (h : Relisted a b) :
    a.filename = b.filename ∧ a.is_directory = b.is_directory ∧
      ∀ t : SortType, order_key t a = order_key t b := by
  induction h with
  | same node => exact ⟨rfl, rfl, fun _ => rfl⟩
  | listing name mtime children children' _ _ =>
    exact ⟨rfl, rfl, fun t => by cases t <;> cases mtime <;> rfl⟩
  | child name mtime before after c c' _ _ =>
    exact ⟨rfl, rfl, fun t => by cases t <;> cases mtime <;> rfl⟩
  | step a b c _ _ ih₁ ih₂ =>
    exact ⟨ih₁.1.trans ih₂.1, ih₁.2.1.trans ih₂.2.1, fun t => (ih₁.2.2 t).trans (ih₂.2.2 t)⟩

theorem forall₂_alike_same (s : Settings) (l : List Node) : List.Forall₂ (alike s) l l := by
  induction l with
  | nil => exact List.Forall₂.nil
  | cons x l ih => exact List.Forall₂.cons (alike_refl s x) ih

theorem forall₂_alike_middle (s : Settings) {c c' : Node} (h : alike s c c') :
    ∀ (before after : List Node),
      List.Forall₂ (alike s) (before ++ c :: after) (before ++ c' :: after) := by
  intro before after
  induction before with
  | nil => exact List.Forall₂.cons h (forall₂_alike_same s after)
  | cons x before ih => exact List.Forall₂.cons (alike_refl s x) ih

theorem any_eq_of_perm {l l' : List Node} (f : Node → Bool) (h : l.Perm l') :
    l.any f = l'.any f := by
  rw [Bool.eq_iff_iff, List.any_eq_true, List.any_eq_true]
  constructor
  · rintro ⟨x, hx, hf⟩
    exact ⟨x, h.mem_iff.mp hx, hf⟩
  · rintro ⟨x, hx, hf⟩
    exact ⟨x, h.mem_iff.mpr hx, hf⟩

/-- The lines written by `print_tree` are the same for a snapshot and for the
snapshot listed otherwise. -/
theorem print_tree_relisted {a b : Node} (h : Relisted a b) (s : Settings) :
    ∀ (d : Int) (p : String), print_tree a s d p = print_tree b s d p := by
  induction h with
  | same node => intro d p; rfl
  | listing name mtime children children' hperm hnodup =>
    intro d p
    rw [print_tree_dir, print_tree_dir, collect_entries_eq, collect_entries_eq,
      any_eq_of_perm _ hperm]
    have hsort : sort_directory (children.filter (selected s)) s.sort_type =
        sort_directory (children'.filter (selected s)) s.sort_type := by
      apply sort_directory_eq_of_perm _ (hperm.filter _)
      exact hnodup.sublist ((List.filter_sublist children).map _)
    by_cases hg : s.max_depth ≠ -1 ∧ d > s.max_depth
    · rw [if_pos hg, if_pos hg]
    · rw [if_neg hg, if_neg hg]
      rcases Bool.eq_false_or_eq_true (children'.any (undefined_at s)) with ha | ha
      · rw [if_pos ha, if_pos ha]
      · have hn : ¬ (children'.any (undefined_at s) = true) := by simp [ha]
        rw [if_neg hn, if_neg hn]
        simp only [hsort]
  | child name mtime before after c c' hc ih =>
    intro d p
    have hattr := relisted_attributes hc
    exact print_tree_dir_alike s name mtime
      (forall₂_alike_middle s ⟨hattr.1, hattr.2.1, hattr.2.2, ih⟩ before after) d p
  | step a b c _ _ ih₁ ih₂ =>
    intro d p
    rw [ih₁ d p, ih₂ d p]

/-- C13: for a fixed configuration the lines written by `print_tree` are determined
by the snapshot and not by the order in which directories are listed: two
listings of the same snapshot, differing in the order in which any number of
directories (each holding pairwise distinct names) give their children, yield
the same output. -/
theorem output_independent_of_listing_order (a b : Node) (h : Relisted a b) (s : Settings)
    (depth : Int) (p : String) : print_tree a s depth p = print_tree b s depth p :=
  print_tree_relisted h s depth p

/-- Witness for C13: the scenario tree listed as `README.md`, `src` with `src`
listed as `b.md`, `a.txt` yields the lines of the scenario tree. -/
theorem output_independent_of_listing_order_witness :
    Relisted
      (Node.dir "proj" (some 0)
        [Node.dir "src" (some 0)
            [Node.file "a.txt" (some 100) (some 0), Node.file "b.md" (some 5) (some 0)],
          Node.file "README.md" (some 50) (some 0)])
      (Node.dir "proj" (some 0)
        [Node.file "README.md" (some 50) (some 0),
          Node.dir "src" (some 0)
            [Node.file "b.md" (some 5) (some 0), Node.file "a.txt" (some 100) (some 0)]]) ∧
    print_tree
      (Node.dir "proj" (some 0)
        [Node.dir "src" (some 0)
            [Node.file "a.txt" (some 100) (some 0), Node.file "b.md" (some 5) (some 0)],
          Node.file "README.md" (some 50) (some 0)])
      (Settings.mk "" (-1) [] SortType.SIZE false) 0 "" =
    print_tree
      (Node.dir "proj" (some 0)
        [Node.file "README.md" (some 50) (some 0),
          Node.dir "src" (some 0)
            [Node.file "b.md" (some 5) (some 0), Node.file "a.txt" (some 100) (some 0)]])
      (Settings.mk "" (-1) [] SortType.SIZE false) 0 "" := by
  have h : Relisted
      (Node.dir "proj" (some 0)
        [Node.dir "src" (some 0)
            [Node.file "a.txt" (some 100) (some 0), Node.file "b.md" (some 5) (some 0)],
          Node.file "README.md" (some 50) (some 0)])
      (Node.dir "proj" (some 0)
        [Node.file "README.md" (some 50) (some 0),
          Node.dir "src" (some 0)
            [Node.file "b.md" (some 5) (some 0), Node.file "a.txt" (some 100) (some 0)]]) :=
    Relisted.step _ _ _
      (Relisted.child "proj" (some 0) [] [Node.file "README.md" (some 50) (some 0)] _ _
        (Relisted.listing "src" (some 0)
          [Node.file "a.txt" (some 100) (some 0), Node.file "b.md" (some 5) (some 0)]
          [Node.file "b.md" (some 5) (some 0), Node.file "a.txt" (some 100) (some 0)]
          (List.Perm.swap _ _ _) (by decide)))
      (Relisted.listing "proj" (some 0) _ _ (List.Perm.swap _ _ _) (by decide))
  exact ⟨h, output_independent_of_listing_order _ _ h _ 0 ""⟩

/-! ## C14: the scenario with sort=size -/

/-- C14: on the scenario tree with `a.txt` of 100 bytes, `b.md` of 5 bytes and
`README.md` of 50 bytes, whatever the modification times, `print_tree` with
sort=size writes `├─ src/`, `│   ├─ b.md`, `│   └─ a.txt`, `└─ README.md`: the line
of `src` comes before the line of `README.md`, and within `src` the line of
`b.md` comes before the line of `a.txt`. -/
theorem scenario_size_output (time_a time_b time_readme time_src time_root : Option Int)
    (directory : String) :
    print_tree
        (proj_tree (some 100) (some 5) (some 50) time_a time_b time_readme time_src time_root)
        (Settings.mk directory (-1) [] SortType.SIZE false) 0 "" =
      some ["├─ src/", "│   ├─ b.md", "│   └─ a.txt", "└─ README.md"] := by
  have hw : (proj_tree (some 100) (some 5) (some 50) time_a time_b time_readme time_src
      time_root).weight ≤ 5 := Nat.le_of_eq rfl
  rw [print_tree, ← print_tree_fuel_eq _ 5 _ _ _ hw]
  rfl

/-! ## C15: entries whose size or time cannot be retrieved -/

/-- C15 (as stated), refuted: under `SIZE` a file whose size query fails is not
ordered as a file of size 0, and under `DATE` an entry whose time query fails is
not ordered as an entry with timestamp 0. -/
theorem failed_query_not_ordered_as_zero :
    (¬ ∀ (name : String) (mtime : Option Int) (other : Node),
        comparator SortType.SIZE (Node.file name none mtime) other =
          comparator SortType.SIZE (Node.file name (some 0) mtime) other) ∧
    (¬ ∀ (name : String) (size : Option Nat) (other : Node),
        comparator SortType.DATE (Node.file name size none) other =
          comparator SortType.DATE (Node.file name size (some 0)) other) := by
  constructor
  · intro h
    have h1 := h "b" (some 0) (Node.file "a" (some 5) (some 0))
    revert h1
    decide
  · intro h
    have h1 := h "b" (some 1) (Node.file "a" (some 1) (some 0))
    revert h1
    decide

/-- The comparators on entries whose kind the status query determines are those of
the snapshot: no call of `is_directory()` throws, whatever the size and time
queries do. -/
theorem comparator_or_throw_known (t : SortType) (a b : Node) :
    comparator_or_throw t (Entry.known a) (Entry.known b) = some (comparator t a b) := by
  cases t
  · simp only [comparator_or_throw, comparator, file_type_sort_or_throw, file_type_sort,
      Entry.is_directory, Entry.filename]
    split_ifs <;> rfl
  · simp only [comparator_or_throw, comparator, size_sort_or_throw, size_sort,
      file_type_sort_or_throw, file_type_sort, Entry.is_directory, Entry.filename,
      Entry.file_size]
    split_ifs <;> rfl
  · simp only [comparator_or_throw, comparator, date_sort_or_throw, date_sort,
      file_type_sort_or_throw, file_type_sort, Entry.is_directory, Entry.filename,
      Entry.last_write_time]
    split_ifs <;> rfl

/-- C15 (amended): on entries whose kind can be determined, the comparator uses the
value that the library call returns on error.  Under `SIZE` a file whose size
query fails is ordered as a file of size `2^64 - 1`, so after every directory
and after every file of smaller size; under `DATE` an entry whose time query
fails is ordered as an entry whose timestamp is `file_time_type::min()`, so
before every entry with a later timestamp; and on two entries whose kind the
status query determines the comparator returns a result, whether their size and
time queries fail or not. -/
theorem failed_query_ordered_as_error_value :
    (∀ (name : String) (mtime : Option Int) (other : Node),
        comparator SortType.SIZE (Node.file name none mtime) other =
          comparator SortType.SIZE (Node.file name (some UINTMAX_MAX) mtime) other ∧
        comparator SortType.SIZE other (Node.file name none mtime) =
          comparator SortType.SIZE other (Node.file name (some UINTMAX_MAX) mtime)) ∧
    (∀ (name : String) (mtime : Option Int) (other : Node),
        other.is_directory = true ∨ other.file_size < UINTMAX_MAX →
        comparator SortType.SIZE other (Node.file name none mtime) = true ∧
        comparator SortType.SIZE (Node.file name none mtime) other = false) ∧
    (∀ (name : String) (size : Option Nat) (other : Node),
        comparator SortType.DATE (Node.file name size none) other =
          comparator SortType.DATE (Node.file name size (some FILE_TIME_MIN)) other ∧
        comparator SortType.DATE other (Node.file name size none) =
          comparator SortType.DATE other (Node.file name size (some FILE_TIME_MIN))) ∧
    (∀ (name : String) (children : List Node) (other : Node),
        comparator SortType.DATE (Node.dir name none children) other =
          comparator SortType.DATE (Node.dir name (some FILE_TIME_MIN) children) other ∧
        comparator SortType.DATE other (Node.dir name none children) =
          comparator SortType.DATE other (Node.dir name (some FILE_TIME_MIN) children)) ∧
    (∀ (name : String) (size : Option Nat) (other : Node),
        FILE_TIME_MIN < other.last_write_time →
        comparator SortType.DATE (Node.file name size none) other = true ∧
        comparator SortType.DATE other (Node.file name size none) = false) ∧
    (∀ (t : SortType) (a b : Node),
        comparator_or_throw t (Entry.known a) (Entry.known b) = some (comparator t a b)) := by
  refine ⟨fun _ _ _ => ⟨rfl, rfl⟩, ?_, fun _ _ _ => ⟨rfl, rfl⟩, fun _ _ _ => ⟨rfl, rfl⟩, ?_,
    comparator_or_throw_known⟩
  · intro name mtime other h
    have hlt : order_key SortType.SIZE other < order_key SortType.SIZE (Node.file name none mtime) := by
      unfold order_key
      rw [Prod.Lex.lt_iff]
      left
      have hself : (if (Node.file name none mtime).is_directory = true then 0
          else (Node.file name none mtime).file_size) = UINTMAX_MAX := rfl
      have h2 : (if other.is_directory = true then 0 else other.file_size) < UINTMAX_MAX := by
        rcases h with h | h
        · rw [if_pos h]
          decide
        · split
          · decide
          · exact h
      simp only [ofLex_toLex, hself]
      exact_mod_cast h2
    exact ⟨(comparator_iff _ _ _).mpr hlt, (comparator_false_iff _ _ _).mpr (le_of_lt hlt)⟩
  · intro name size other h
    have hlt : order_key SortType.DATE (Node.file name size none) < order_key SortType.DATE other := by
      unfold order_key
      rw [Prod.Lex.lt_iff]
      left
      simpa [Node.last_write_time] using h
    exact ⟨(comparator_iff _ _ _).mpr hlt, (comparator_false_iff _ _ _).mpr (le_of_lt hlt)⟩

/-- Witness for C15 (amended): under `SIZE` a file whose size query fails is ordered
after a file of 5 bytes. -/
theorem failed_query_ordered_as_error_value_witness :
    ((Node.file "a" (some 5) (some 0)).is_directory = true ∨
      (Node.file "a" (some 5) (some 0)).file_size < UINTMAX_MAX) ∧
    comparator SortType.SIZE (Node.file "a" (some 5) (some 0)) (Node.file "b" none (some 0))
      = true ∧
    comparator SortType.SIZE (Node.file "b" none (some 0)) (Node.file "a" (some 5) (some 0))
      = false :=
  ⟨Or.inr (by decide),
    failed_query_ordered_as_error_value.2.1 "b" (some 0) (Node.file "a" (some 5) (some 0))
      (Or.inr (by decide))⟩

/-! ## C16: the value of the depth option -/

theorem not_isspace_of_isDigit {c : Char} (h : c.isDigit = true) : isspace c = false := by
  cases hs : isspace c with
  | false => rfl
  | true =>
    simp only [isspace, Bool.decide_or, Bool.or_eq_true, decide_eq_true_eq] at hs
    rcases hs with rfl | rfl | rfl | rfl | rfl | rfl <;> exact absurd h (by decide)

theorem not_sign_of_isDigit {c : Char} (h : c.isDigit = true) : ¬ (c = '-' ∨ c = '+') := by
  rintro (rfl | rfl) <;> exact absurd h (by decide)

theorem takeWhile_isDigit_append (tail : List Char)
    (htail : ∀ c, tail.head? = some c → c.isDigit = false) :
    ∀ ds : List Char, (∀ c ∈ ds, c.isDigit = true) →
      (ds ++ tail).takeWhile Char.isDigit = ds := by
  intro ds
  induction ds with
  | nil =>
    intro _
    cases tail with
    | nil => rfl
    | cons c tail => simp [List.takeWhile, htail c rfl]
  | cons d ds ih =>
    intro h
    rw [List.cons_append, List.takeWhile_cons, h d (List.mem_cons_self _ _)]
    simp only [if_true]
    rw [ih (fun c hc => h c (List.mem_cons_of_mem _ hc))]

/-- The function `std::stoi` reads a run of digits and ignores what follows it. -/
theorem stoi_digits (ds tail : List Char) (hne : ds ≠ [])
    (hds : ∀ c ∈ ds, c.isDigit = true)
    (htail : ∀ c, tail.head? = some c → c.isDigit = false)
    (hmax : (digits_value ds : Int) ≤ INT_MAX) :
    stoi (String.mk (ds ++ tail)) = some (digits_value ds : Int) := by
  cases ds with
  | nil => exact absurd rfl hne
  | cons d ds' =>
    have hd := hds d (List.mem_cons_self _ _)
    have htw := takeWhile_isDigit_append tail htail (d :: ds') hds
    have hminus : d ≠ '-' := fun h => not_sign_of_isDigit hd (Or.inl h)
    have hmin : ¬ ((digits_value (d :: ds') : Int) < INT_MIN) := by
      have h0 : (0 : Int) ≤ (digits_value (d :: ds') : Int) := Int.ofNat_nonneg _
      have h1 : INT_MIN < 0 := by decide
      omega
    have hplus : d ≠ '+' := fun h => not_sign_of_isDigit hd (Or.inr h)
    have hdrop : (String.mk (d :: ds' ++ tail)).data.dropWhile isspace = d :: (ds' ++ tail) := by
      show (d :: (ds' ++ tail)).dropWhile isspace = d :: (ds' ++ tail)
      rw [List.dropWhile_cons, not_isspace_of_isDigit hd]
      rfl
    have htw' : (d :: (ds' ++ tail)).takeWhile Char.isDigit = d :: ds' := htw
    unfold stoi
    rw [hdrop]
    simp only [hminus, hplus, or_self, if_false, htw', decide_False, Bool.false_eq_true]
    simp [hmin, not_lt.mpr hmax]

/-- The function `std::stoi` reads a minus sign followed by a run of digits. -/
theorem stoi_minus_digits (ds tail : List Char) (hne : ds ≠ [])
    (hds : ∀ c ∈ ds, c.isDigit = true)
    (htail : ∀ c, tail.head? = some c → c.isDigit = false)
    (hmin : INT_MIN ≤ -(digits_value ds : Int)) :
    stoi (String.mk ('-' :: (ds ++ tail))) = some (-(digits_value ds : Int)) := by
  have htw := takeWhile_isDigit_append tail htail ds hds
  have hmax : ¬ (INT_MAX < -(digits_value ds : Int)) := by
    have h0 : (0 : Int) ≤ (digits_value ds : Int) := Int.ofNat_nonneg _
    have h1 : (0 : Int) < INT_MAX := by decide
    omega
  have hsp : isspace '-' = false := by decide
  have hdrop : (String.mk ('-' :: (ds ++ tail))).data.dropWhile isspace = '-' :: (ds ++ tail) := by
    show ('-' :: (ds ++ tail)).dropWhile isspace = '-' :: (ds ++ tail)
    rw [List.dropWhile_cons, hsp]
    rfl
  unfold stoi
  rw [hdrop]
  simp only [true_or, if_true, htw, decide_True]
  simp [hne, not_lt.mpr hmin, hmax]

/-- A call of `print_tree` with a depth limit below `-1` writes nothing. -/
theorem print_tree_negative_limit (root : Node) (s : Settings) (h : s.max_depth < -1)
    (p : String) : print_tree root s 0 p = some [] := by
  cases root with
  | file n sz m => rw [print_tree, print_tree_trace_file]; rfl
  | dir n m cs =>
    rw [print_tree_dir, if_pos]
    constructor
    · omega
    · omega

/-- C16 (as stated), refuted: the values `12abc` and `-5` are not well-formed
non-negative integers, and `parse_arguments` does not return false for them. -/
theorem malformed_depth_accepted :
    (¬ ∀ value : String, well_formed_depth value = false →
        ∃ settings, parse_arguments ["show-tree", "/proj", "-d", value] (Settings.mk "" (-1) []
          SortType.NAME false) = ParseOutcome.returned false settings) ∧
    well_formed_depth "12abc" = false ∧ well_formed_depth "-5" = false ∧
    parse_arguments ["show-tree", "/proj", "-d", "12abc"]
        (Settings.mk "" (-1) [] SortType.NAME false) =
      ParseOutcome.returned true (Settings.mk "/proj" 12 [] SortType.NAME false) ∧
    parse_arguments ["show-tree", "/proj", "-d", "-5"]
        (Settings.mk "" (-1) [] SortType.NAME false) =
      ParseOutcome.returned true (Settings.mk "/proj" (-5) [] SortType.NAME false) := by
  refine ⟨?_, by decide, by decide, by rfl, by rfl⟩
  intro h
  obtain ⟨settings, hs⟩ := h "12abc" (by decide)
  have h1 : parse_arguments ["show-tree", "/proj", "-d", "12abc"]
      (Settings.mk "" (-1) [] SortType.NAME false) =
      ParseOutcome.returned true (Settings.mk "/proj" 12 [] SortType.NAME false) := by rfl
  rw [h1] at hs
  cases hs

/-- C16 (amended): the value given to `-d` or `--depth` is converted by `std::stoi`
and stored without validation.  When it starts with a run of digits whose number
`n` fits in `int`, followed by anything that is not a digit (nothing, for a
well-formed integer), `parse_arguments` sets `max_depth = n` and goes on with
the remaining arguments, returning true when there is none; when it is a minus
sign followed by such a run of digits, `max_depth` is set to `-n`; and with a
limit below `-1` `print_tree` writes nothing. -/
theorem depth_value_read_by_stoi :
    (∀ (prog dir flag : String) (rest : List String) (s : Settings) (ds tail : List Char),
        flag = "-d" ∨ flag = "--depth" → ds ≠ [] → (∀ c ∈ ds, c.isDigit = true) →
        (∀ c, tail.head? = some c → c.isDigit = false) →
        (digits_value ds : Int) ≤ INT_MAX →
        parse_arguments (prog :: dir :: flag :: String.mk (ds ++ tail) :: rest) s =
            parse_options rest
              { s with directory := dir, max_depth := (digits_value ds : Int) } ∧
          parse_arguments [prog, dir, flag, String.mk (ds ++ tail)] s =
            ParseOutcome.returned true
              { s with directory := dir, max_depth := (digits_value ds : Int) }) ∧
    (∀ (prog dir flag : String) (rest : List String) (s : Settings) (ds tail : List Char),
        flag = "-d" ∨ flag = "--depth" → ds ≠ [] → (∀ c ∈ ds, c.isDigit = true) →
        (∀ c, tail.head? = some c → c.isDigit = false) →
        INT_MIN ≤ -(digits_value ds : Int) →
        parse_arguments (prog :: dir :: flag :: String.mk ('-' :: (ds ++ tail)) :: rest) s =
            parse_options rest
              { s with directory := dir, max_depth := -(digits_value ds : Int) } ∧
          parse_arguments [prog, dir, flag, String.mk ('-' :: (ds ++ tail))] s =
            ParseOutcome.returned true
              { s with directory := dir, max_depth := -(digits_value ds : Int) }) ∧
    (∀ (root : Node) (s : Settings), s.max_depth < -1 → print_tree root s 0 "" = some []) := by
  refine ⟨?_, ?_, fun root s h => print_tree_negative_limit root s h ""⟩
  · intro prog dir flag rest s ds tail hflag hne hds htail hmax
    have hstoi := stoi_digits ds tail hne hds htail hmax
    have key : ∀ rest : List String,
        parse_arguments (prog :: dir :: flag :: String.mk (ds ++ tail) :: rest) s =
          parse_options rest
            { s with directory := dir, max_depth := (digits_value ds : Int) } := by
      intro rest
      simp only [parse_arguments, parse_options, hflag, if_true, hstoi]
    exact ⟨key rest, (key []).trans rfl⟩
  · intro prog dir flag rest s ds tail hflag hne hds htail hmin
    have hstoi := stoi_minus_digits ds tail hne hds htail hmin
    have key : ∀ rest : List String,
        parse_arguments (prog :: dir :: flag :: String.mk ('-' :: (ds ++ tail)) :: rest) s =
          parse_options rest
            { s with directory := dir, max_depth := -(digits_value ds : Int) } := by
      intro rest
      simp only [parse_arguments, parse_options, hflag, if_true, hstoi]
    exact ⟨key rest, (key []).trans rfl⟩

/-- Witness for C16 (amended): the value `12abc` sets `max_depth = 12`. -/
theorem depth_value_read_by_stoi_witness :
    digits_value ['1', '2'] = 12 ∧
    parse_arguments ["show-tree", "/proj", "-d", String.mk (['1', '2'] ++ ['a', 'b', 'c'])]
        (Settings.mk "" (-1) [] SortType.NAME false) =
      ParseOutcome.returned true
        { Settings.mk "" (-1) [] SortType.NAME false with
          directory := "/proj", max_depth := (digits_value ['1', '2'] : Int) } :=
  ⟨by decide,
    (depth_value_read_by_stoi.1 "show-tree" "/proj" "-d" [] (Settings.mk "" (-1) [] SortType.NAME false)
      ['1', '2'] ['a', 'b', 'c'] (Or.inl rfl) (by decide) (by decide) (by decide)
      (by decide)).2⟩

/-! ## C17: the depth limit restricts the output -/

theorem collect_entries_max_depth (s : Settings) (limit : Int) (l : List Node) :
    collect_entries { s with max_depth := limit } l = collect_entries s l := by
  induction l with
  | nil => rfl
  | cons e rest ih =>
    rw [collect_entries, collect_entries, ih]
    rfl

/-- The second loop of `print_tree` under a depth limit writes the lines of depth
at most the limit among those it writes otherwise, when the recursive calls
do. -/
theorem print_entries_limit (r r' : Node → String → Option (List Emitted)) (d : Int)
    (p : String) (count : Nat) (limit : Int) (hd : d ≤ limit) :
    ∀ (l : List Node) (i : Nat) (out' : List Emitted),
      (∀ e ∈ l, ∀ q o', r' e q = some o' →
        r e q = some (o'.filter (fun em => decide (em.depth ≤ limit)))) →
      print_entries r' d p count i l = some out' →
      print_entries r d p count i l =
        some (out'.filter (fun em => decide (em.depth ≤ limit))) := by
  intro l
  induction l with
  | nil =>
    intro i out' _ h
    simp only [print_entries, Option.some.injEq] at h
    subst h
    rfl
  | cons e rest ih =>
    intro i out' hrec h
    obtain ⟨sub, later, hsub, hlater, rfl⟩ := print_entries_cons_some h
    have hrest := ih (i + 1) later
      (fun x hx q o' => hrec x (List.mem_cons_of_mem _ hx) q o') hlater
    rw [print_entries]
    simp only [hrest, List.filter_cons, List.filter_append, entry_line, branch_glyph]
    cases hdir : e.is_directory with
    | false =>
      rw [hdir] at hsub
      simp only [Bool.false_eq_true, if_false] at hsub
      subst hsub
      simp [hd]
    | true =>
      rw [hdir] at hsub
      simp only [if_true, continuation] at hsub
      have h1 := hrec e (List.mem_cons_self _ _) _ sub hsub
      simp only [if_true, h1]
      simp [hd]

/-- A call of `print_tree` under the limit `limit ≠ -1` writes the lines of depth at
most `limit` among those written under a limit that is absent or not smaller. -/
theorem print_tree_trace_limit (s : Settings) (limit limit' : Int) (hlimit : limit ≠ -1)
    (hweak : limit' = -1 ∨ limit ≤ limit') :
    ∀ (fuel : Nat) (node : Node) (d : Int) (q : String) (out' : List Emitted),
      node.weight ≤ fuel →
      print_tree_trace node { s with max_depth := limit' } d q = some out' →
      print_tree_trace node { s with max_depth := limit } d q =
        some (out'.filter (fun em => decide (em.depth ≤ limit))) := by
  intro fuel
  induction fuel with
  | zero =>
    intro node d q out' hw
    have := weight_pos node
    omega
  | succ fuel ih =>
    intro node d q out' hw h
    cases node with
    | file n sz m =>
      rw [print_tree_trace_file] at h ⊢
      cases h
      rfl
    | dir n m cs =>
      by_cases hcut : d > limit
      · have hnil : out'.filter (fun em => decide (em.depth ≤ limit)) = [] := by
          rw [List.filter_eq_nil_iff]
          intro em hem
          have := (print_tree_trace_shape _ (Node.dir n m cs).weight _ d q out' (le_refl _) h
            em hem).1
          simp only [decide_eq_true_eq, not_le]
          omega
        rw [hnil, print_tree_trace_dir, if_pos ⟨hlimit, hcut⟩]
      · have hg : ¬ (limit ≠ -1 ∧ d > limit) := fun hh => hcut hh.2
        have hg' : ¬ (limit' ≠ -1 ∧ d > limit') := by
          rintro ⟨h1, h2⟩
          rcases hweak with hw' | hw'
          · exact h1 hw'
          · omega
        rw [print_tree_trace_dir, if_neg hg', collect_entries_max_depth] at h
        rw [print_tree_trace_dir, if_neg hg, collect_entries_max_depth]
        cases hc : collect_entries s cs with
        | none => rw [hc] at h; cases h
        | some listed =>
          rw [hc] at h
          simp only [] at h ⊢
          apply print_entries_limit _ _ d q _ limit (by omega) _ 0 out' _ h
          intro e he q' o' ho'
          have h1 : e ∈ cs := mem_of_collect_entries s cs listed hc e (mem_sort_directory.mp he)
          have h2 := weight_le_of_mem h1
          rw [Node.weight] at hw
          exact ih e (d + 1) q' o' (by omega) ho'

/-- C17: for every snapshot, every configuration and every depth limit `d ≥ 0`, the
output of `print_tree` with `max_depth = d` consists of the lines of depth at
most `d` of the output without a depth limit, in the same order and with the
same text; and it consists of the lines of depth at most `d` of the output with
`max_depth = d + 1`, of which it is therefore a subsequence. -/
theorem depth_limit_restricts_output (root : Node) (s : Settings) (d : Nat) :
    (∀ unlimited : List Emitted,
      print_tree_trace root { s with max_depth := -1 } 0 "" = some unlimited →
      print_tree_trace root { s with max_depth := (d : Int) } 0 "" =
          some (unlimited.filter (fun em => decide (em.depth ≤ (d : Int)))) ∧
        print_tree root { s with max_depth := (d : Int) } 0 "" =
          some ((unlimited.filter (fun em => decide (em.depth ≤ (d : Int)))).map
            Emitted.text)) ∧
    (∀ next : List Emitted,
      print_tree_trace root { s with max_depth := (d : Int) + 1 } 0 "" = some next →
      print_tree_trace root { s with max_depth := (d : Int) } 0 "" =
          some (next.filter (fun em => decide (em.depth ≤ (d : Int)))) ∧
        ∃ lines lines' : List String,
          print_tree root { s with max_depth := (d : Int) } 0 "" = some lines ∧
          print_tree root { s with max_depth := (d : Int) + 1 } 0 "" = some lines' ∧
          lines.Sublist lines') := by
  have hd : (d : Int) ≠ -1 := by omega
  constructor
  · intro unlimited h
    have h1 := print_tree_trace_limit s d (-1) hd (Or.inl rfl) root.weight root 0 "" unlimited
      (le_refl _) h
    exact ⟨h1, by rw [print_tree, h1]; rfl⟩
  · intro next h
    have h1 := print_tree_trace_limit s d (d + 1) hd (Or.inr (by omega)) root.weight root 0 ""
      next (le_refl _) h
    refine ⟨h1, _, _, by rw [print_tree, h1]; rfl, by rw [print_tree, h]; rfl, ?_⟩
    exact (List.filter_sublist next).map _

/-- Witness for C17: on the scenario tree the output with depth limit 0 holds the two
lines of depth 0 of the four lines written without a limit. -/
theorem depth_limit_restricts_output_witness :
    print_tree_trace proj { Settings.mk "" 7 [] SortType.NAME false with max_depth := -1 } 0 "" =
      some
        [Emitted.mk 0 (Node.dir "src" (some 0)
            [Node.file "a.txt" (some 100) (some 0), Node.file "b.md" (some 5) (some 0)])
            "├─ src/",
          Emitted.mk 1 (Node.file "b.md" (some 5) (some 0)) "│   ├─ b.md",
          Emitted.mk 1 (Node.file "a.txt" (some 100) (some 0)) "│   └─ a.txt",
          Emitted.mk 0 (Node.file "README.md" (some 50) (some 0)) "└─ README.md"] ∧
    print_tree proj { Settings.mk "" 7 [] SortType.NAME false with max_depth := ((0 : Nat) : Int) }
        0 "" =
      some ["├─ src/", "└─ README.md"] := by
  have h : print_tree_trace proj
      { Settings.mk "" 7 [] SortType.NAME false with max_depth := -1 } 0 "" =
      some
        [Emitted.mk 0 (Node.dir "src" (some 0)
            [Node.file "a.txt" (some 100) (some 0), Node.file "b.md" (some 5) (some 0)])
            "├─ src/",
          Emitted.mk 1 (Node.file "b.md" (some 5) (some 0)) "│   ├─ b.md",
          Emitted.mk 1 (Node.file "a.txt" (some 100) (some 0)) "│   └─ a.txt",
          Emitted.mk 0 (Node.file "README.md" (some 50) (some 0)) "└─ README.md"] :=
    (print_tree_fuel_eq _ 5 proj 0 "" (by decide)).symm.trans (by rfl)
  exact ⟨h, ((depth_limit_restricts_output proj (Settings.mk "" 7 [] SortType.NAME false) 0).1
    _ h).2.trans (by decide)⟩

/-! ## C18: an active filter stops the recursion -/

theorem filters_isEmpty_false {s : Settings} (h : s.filters ≠ []) :
    s.filters.isEmpty = false := by
  cases hf : s.filters with
  | nil => exact absurd hf h
  | cons _ _ => rfl

theorem selected_not_directory {s : Settings} (h : s.filters ≠ []) {e : Node}
    (he : selected s e = true) : e.is_directory = false := by
  cases hd : e.is_directory with
  | false => rfl
  | true =>
    have hm : matches_filter e s = some false := by
      simp [matches_filter, filters_isEmpty_false h, hd]
    simp [selected, hm] at he

theorem undefined_at_directory {s : Settings} (h : s.filters ≠ []) {e : Node}
    (hd : e.is_directory = true) : undefined_at s e = false := by
  have hm : matches_filter e s = some false := by
    simp [matches_filter, filters_isEmpty_false h, hd]
  simp [undefined_at, hm]

theorem not_directory_of_collect_entries {s : Settings} (h : s.filters ≠ []) (l r : List Node)
    (hc : collect_entries s l = some r) : ∀ e ∈ r, e.is_directory = false := by
  rw [collect_entries_eq] at hc
  split at hc
  · cases hc
  · cases hc
    intro e he
    exact selected_not_directory h (List.mem_filter.mp he).2

/-- With an active filter the first loop of `print_tree` does not look at what the
directories of the listing are. -/
theorem collect_entries_without_directories {s : Settings} (h : s.filters ≠ [])
    (l : List Node) :
    collect_entries s (l.filter (fun e => !e.is_directory)) = collect_entries s l := by
  rw [collect_entries_eq, collect_entries_eq]
  have hany : (l.filter (fun e => !e.is_directory)).any (undefined_at s) =
      l.any (undefined_at s) := by
    rw [Bool.eq_iff_iff, List.any_eq_true, List.any_eq_true]
    constructor
    · rintro ⟨x, hx, hu⟩
      exact ⟨x, (List.mem_filter.mp hx).1, hu⟩
    · rintro ⟨x, hx, hu⟩
      refine ⟨x, List.mem_filter.mpr ⟨hx, ?_⟩, hu⟩
      cases hd : x.is_directory with
      | false => rfl
      | true => rw [undefined_at_directory h hd] at hu; cases hu
  have hfilter : (l.filter (fun e => !e.is_directory)).filter (selected s) =
      l.filter (selected s) := by
    rw [List.filter_filter]
    apply List.filter_congr
    intro x _
    cases hs : selected s x with
    | false => rfl
    | true => simp [selected_not_directory h hs]
  rw [hany, hfilter]

/-- C18: with a non-empty filter list `print_tree` never recurses: every line it
writes, called at depth 0 with the empty prefix, has depth 0, is written for a
non-directory entry of the listing of the root, and consists of a branch glyph
followed by the name of the entry, with neither prefix nor `/`; the output is
that of the root deprived of its subdirectories, so that nothing lying in a
subdirectory is shown; and the output is defined when no filter is the empty
string. -/
theorem active_filter_stops_recursion (root : Node) (s : Settings)
    (hfilters : s.filters ≠ []) :
    (∀ out : List Emitted, print_tree_trace root s 0 "" = some out → ∀ em ∈ out,
      em.depth = 0 ∧ em.entry ∈ root.children ∧ em.entry.is_directory = false ∧
      (em.text = "├─ " ++ em.entry.filename ∨ em.text = "└─ " ++ em.entry.filename)) ∧
    (∀ (name : String) (mtime : Option Int) (children : List Node) (depth : Int) (p : String),
      print_tree_trace (Node.dir name mtime children) s depth p =
        print_tree_trace
          (Node.dir name mtime (children.filter (fun e => !e.is_directory))) s depth p) ∧
    ((∀ f ∈ s.filters, f ≠ "") → ∃ out, print_tree_trace root s 0 "" = some out) := by
  refine ⟨?_, ?_, fun hf => print_tree_trace_defined s hf root.weight root 0 "" (le_refl _)⟩
  · intro out hout em hem
    cases root with
    | file n sz m =>
      rw [print_tree_trace_file] at hout
      cases hout
      cases hem
    | dir n m cs =>
      rw [print_tree_trace_dir] at hout
      split at hout
      · cases hout
        cases hem
      · cases hc : collect_entries s cs with
        | none => rw [hc] at hout; cases hout
        | some listed =>
          rw [hc] at hout
          simp only [] at hout
          have hnd := not_directory_of_collect_entries hfilters cs listed hc
          rcases print_entries_mem _ _ _ _ _ _ _ hout em hem with
            ⟨c, hcmem, last, rfl⟩ | ⟨c, hcmem, _, _, hdir, _, _⟩
          · have hc1 : c ∈ listed := mem_sort_directory.mp hcmem
            have hfile := hnd c hc1
            refine ⟨rfl, mem_of_collect_entries s cs listed hc c hc1, hfile, ?_⟩
            cases last with
            | false =>
              left
              simp [entry_line, branch_glyph, hfile]
            | true =>
              right
              simp [entry_line, branch_glyph, hfile]
          · rw [hnd c (mem_sort_directory.mp hcmem)] at hdir
            cases hdir
  · intro name mtime children depth p
    rw [print_tree_trace_dir, print_tree_trace_dir,
      collect_entries_without_directories hfilters]

/-- Witness for C18: on the scenario tree with the filter `md` only `README.md`,
which lies in the root, is written; `b.md`, which lies in `src`, is not. -/
theorem active_filter_stops_recursion_witness :
    (Settings.mk "" (-1) ["md"] SortType.NAME false).filters ≠ [] ∧
    print_tree_trace proj (Settings.mk "" (-1) ["md"] SortType.NAME false) 0 "" =
      some [Emitted.mk 0 (Node.file "README.md" (some 50) (some 0)) "└─ README.md"] ∧
    ∀ em ∈ [Emitted.mk 0 (Node.file "README.md" (some 50) (some 0)) "└─ README.md"],
      em.depth = 0 ∧ em.entry ∈ proj.children ∧ em.entry.is_directory = false ∧
      (em.text = "├─ " ++ em.entry.filename ∨ em.text = "└─ " ++ em.entry.filename) :=
  ⟨by decide, (print_tree_fuel_eq _ 5 proj 0 "" (by decide)).symm.trans (by rfl),
    (active_filter_stops_recursion proj (Settings.mk "" (-1) ["md"] SortType.NAME false)
      (by decide)).1 _ ((print_tree_fuel_eq _ 5 proj 0 "" (by decide)).symm.trans (by rfl))⟩

/-! ## C19: the filters stored by `parse_arguments` -/

/-- One round of the splitting loop of `parse_arguments`: when the first comma of
`filter_str` stands after `segment`, the loop pushes `segment` and goes on with
what follows the comma. -/
theorem split_filters_comma (rest : List Char) :
    ∀ (segment done : List Char), ',' ∉ segment →
      split_filters done (segment ++ ',' :: rest) =
        String.mk (done ++ segment) :: split_filters [] rest := by
  intro segment
  induction segment with
  | nil =>
    intro done _
    simp [split_filters]
  | cons c segment ih =>
    intro done h
    have hc : c ≠ ',' := fun hc => h (by rw [hc]; exact List.mem_cons_self _ _)
    have hs : ',' ∉ segment := fun hs => h (List.mem_cons_of_mem _ hs)
    rw [List.cons_append, split_filters, if_neg hc, ih (done ++ [c]) hs]
    simp

/-- The end of the splitting loop of `parse_arguments`: when `filter_str` holds no
comma it is pushed unless it is empty. -/
theorem split_filters_no_comma :
    ∀ (segment done : List Char), ',' ∉ segment →
      split_filters done segment =
        if done ++ segment = [] then [] else [String.mk (done ++ segment)] := by
  intro segment
  induction segment with
  | nil =>
    intro done _
    simp [split_filters]
  | cons c segment ih =>
    intro done h
    have hc : c ≠ ',' := fun hc => h (by rw [hc]; exact List.mem_cons_self _ _)
    have hs : ',' ∉ segment := fun hs => h (List.mem_cons_of_mem _ hs)
    rw [split_filters, if_neg hc, ih (done ++ [c]) hs]
    simp

/-- C19, the code at the failing input: for the value `txt,,md` of `-f`,
`parse_arguments` returns true and stores the filters `txt`, the empty string
and `md`; with these settings `matches_filter` is undefined on the file
`main.c` (it calls `front()` on the empty filter), and so is `print_tree` on a
directory that holds it. -/
theorem empty_filter_stored :
    parse_arguments ["show-tree", "/proj", "-f", "txt,,md"]
        (Settings.mk "" (-1) [] SortType.NAME false) =
      ParseOutcome.returned true (Settings.mk "/proj" (-1) ["txt", "", "md"] SortType.NAME false) ∧
    matches_filter (Node.file "main.c" (some 1) (some 0))
        (Settings.mk "/proj" (-1) ["txt", "", "md"] SortType.NAME false) = none ∧
    print_tree (Node.dir "proj" (some 0) [Node.file "main.c" (some 1) (some 0)])
        (Settings.mk "/proj" (-1) ["txt", "", "md"] SortType.NAME false) 0 "" = none := by
  refine ⟨by rfl, by decide, ?_⟩
  rw [print_tree, ← print_tree_fuel_eq _ 2 _ _ _ (by decide)]
  rfl

end ShowTree
